import Mathlib

/-!
Shallow embedding of the expense-splitter core (Go packages `groups` and the
internal graph file), together with proofs checking the natural-language
specification against it.

Modelling conventions:
* Go `float64` arithmetic is modelled by exact rationals (`ℚ`);
* Go `int64` is modelled by unbounded `Int` — no claim below depends on
  64-bit wrap-around — with Go's truncated division modelled by
  `Int.tdiv` / `Int.tmod`;
* Go `map[K]V` values are modelled by association lists `List (K × V)`;
  reachable Go maps have pairwise-distinct keys, which appears below as
  explicit `Nodup` hypotheses where a proof needs it;
* Go's nondeterministic map-iteration order is irrelevant to every claim
  proved here: every quantity read off an iteration is order-independent
  (a sum, a set of keys, or a deterministically re-sorted list).
-/

deriving instance DecidableEq for Except

/-- Whitespace test for the ASCII range (tab through carriage return, and
space), the fragment of Go's `unicode.IsSpace` that the validated name
alphabet can ever meet. -/
def charIsSpace (c : Char) : Bool :=
  (decide (9 ≤ c.toNat) && decide (c.toNat ≤ 13)) || decide (c.toNat = 32)

/-- ASCII lowercasing of one character, the fragment of Go's
`unicode.ToLower` relevant to the validated name alphabet. -/
def charToLower (c : Char) : Char :=
  if decide ('A' ≤ c) && decide (c ≤ 'Z') then Char.ofNat (c.toNat + 32) else c

/-- `strings.TrimSpace`, in kernel-computable form over the char list. -/
def strTrim (s : String) : String :=
  String.mk (((s.toList.dropWhile charIsSpace).reverse.dropWhile charIsSpace).reverse)

/-- `strings.ToLower`, in kernel-computable form over the char list. -/
def strLower (s : String) : String :=
  String.mk (s.toList.map charToLower)

/-- `normalizeName` from groups/names.go: trim whitespace, lowercase. -/
def normalizeName (name : String) : String := strLower (strTrim name)

/-- Lexicographic (by code point, which for valid UTF-8 agrees with Go's
byte-wise string order) comparison of char lists, non-strict. -/
def charsLE : List Char → List Char → Bool
  | [], _ => true
  | _ :: _, [] => false
  | c :: cs, d :: ds =>
    if c.toNat < d.toNat then true
    else if d.toNat < c.toNat then false
    else charsLE cs ds

/-- Lexicographic comparison of char lists, strict. -/
def charsLT : List Char → List Char → Bool
  | [], [] => false
  | [], _ :: _ => true
  | _ :: _, [] => false
  | c :: cs, d :: ds =>
    if c.toNat < d.toNat then true
    else if d.toNat < c.toNat then false
    else charsLT cs ds

/-- The string order used by `sort.Strings` / `sort.Slice` in the Go code,
non-strict form. -/
def strLE (a b : String) : Prop := charsLE a.toList b.toList = true

/-- The string order used by the Go code, strict form. -/
def strLT (a b : String) : Prop := charsLT a.toList b.toList = true

instance : DecidableRel strLE := fun a b => by
  unfold strLE; infer_instance

instance : DecidableRel strLT := fun a b => by
  unfold strLT; infer_instance

/-- Addition on `ℚ` in kernel-computable form (`ratAdd_eq` bridges to `+`). -/
def ratAdd (a b : ℚ) : ℚ := Rat.divInt (a.num * b.den + b.num * a.den) ((a.den : Int) * b.den)

/-- Negation on `ℚ` in kernel-computable form. -/
def ratNeg (a : ℚ) : ℚ := Rat.divInt (-a.num) a.den

/-- Subtraction on `ℚ` in kernel-computable form. -/
def ratSub (a b : ℚ) : ℚ := ratAdd a (ratNeg b)

/-- Multiplication on `ℚ` in kernel-computable form. -/
def ratMul (a b : ℚ) : ℚ := Rat.divInt (a.num * b.num) ((a.den : Int) * b.den)

/-- Inverse on `ℚ` in kernel-computable form. -/
def ratInv (a : ℚ) : ℚ := Rat.divInt a.den a.num

/-- Division on `ℚ` in kernel-computable form. -/
def ratDiv (a b : ℚ) : ℚ := ratMul a (ratInv b)

/-- Absolute value on `ℚ` in kernel-computable form. -/
def ratAbs (a : ℚ) : ℚ := if a < 0 then ratNeg a else a

/-- `math.Floor` on `ℚ`, in kernel-computable form (`ratFloor_eq` bridges
to `⌊·⌋`). -/
def ratFloor (a : ℚ) : Int := a.num / (a.den : Int)

/-- Sum of a list of rationals in kernel-computable form. -/
def sumQ (l : List ℚ) : ℚ := l.foldr ratAdd 0

/-- `ratAdd` is addition. -/
theorem ratAdd_eq (a b : ℚ) : ratAdd a b = a + b := by
  have ha : ((a.den : Int) : Int) ≠ 0 := Int.natCast_ne_zero.mpr a.den_nz
  have hb : ((b.den : Int) : Int) ≠ 0 := Int.natCast_ne_zero.mpr b.den_nz
  rw [ratAdd, ← Rat.num_divInt_den a, ← Rat.num_divInt_den b,
    Rat.divInt_add_divInt _ _ ha hb]
  simp [Rat.num_divInt_den]

/-- `ratNeg` is negation. -/
theorem ratNeg_eq (a : ℚ) : ratNeg a = -a := by
  rw [ratNeg, ← Rat.num_divInt_den a, Rat.neg_divInt]
  simp [Rat.num_divInt_den]

/-- `ratSub` is subtraction. -/
theorem ratSub_eq (a b : ℚ) : ratSub a b = a - b := by
  rw [ratSub, ratAdd_eq, ratNeg_eq, sub_eq_add_neg]

/-- `ratMul` is multiplication. -/
theorem ratMul_eq (a b : ℚ) : ratMul a b = a * b := by
  have ha : ((a.den : Int) : Int) ≠ 0 := Int.natCast_ne_zero.mpr a.den_nz
  have hb : ((b.den : Int) : Int) ≠ 0 := Int.natCast_ne_zero.mpr b.den_nz
  rw [ratMul, ← Rat.num_divInt_den a, ← Rat.num_divInt_den b,
    Rat.divInt_mul_divInt _ _ ha hb]
  simp [Rat.num_divInt_den]

/-- `ratInv` is the inverse. -/
theorem ratInv_eq (a : ℚ) : ratInv a = a⁻¹ := by
  have : a⁻¹ = (Rat.divInt a.num a.den).inv := by rw [Rat.num_divInt_den]; rfl
  rw [ratInv, this, Rat.inv_divInt]

/-- `ratDiv` is division. -/
theorem ratDiv_eq (a b : ℚ) : ratDiv a b = a / b := by
  rw [ratDiv, ratMul_eq, ratInv_eq, div_eq_mul_inv]

/-- `ratAbs` is the absolute value. -/
theorem ratAbs_eq (a : ℚ) : ratAbs a = |a| := by
  rw [ratAbs]
  by_cases h : a < 0
  · rw [if_pos h, ratNeg_eq, abs_of_neg h]
  · rw [if_neg h, abs_of_nonneg (not_lt.mp h)]

/-- `ratFloor` is the floor. -/
theorem ratFloor_eq (a : ℚ) : ratFloor a = ⌊a⌋ := by
  rw [ratFloor, Rat.floor_def]

/-- `sumQ` is the list sum. -/
theorem sumQ_eq (l : List ℚ) : sumQ l = l.sum := by
  induction l with
  | nil => simp [sumQ]
  | cons a l ih =>
    simp only [sumQ, List.foldr_cons, List.sum_cons] at *
    rw [ratAdd_eq, ih]

/-- First-match association-list lookup, the model of a Go map read. -/
def lookupA {α β : Type} [DecidableEq α] : List (α × β) → α → Option β
  | [], _ => none
  | kv :: rest, a => if kv.1 = a then some kv.2 else lookupA rest a

/-- Lookup of an integer-valued map entry, defaulting to 0 (a Go map read
of a missing key yields the zero value). -/
def lookupZ {α : Type} [DecidableEq α] (m : List (α × Int)) (a : α) : Int :=
  (lookupA m a).getD 0

/-- The keys of an association list. -/
def keysA {α β : Type} (m : List (α × β)) : List α := m.map (·.1)

/-- Sum of the values of an integer-valued association list. -/
def sumVals {α : Type} (m : List (α × Int)) : Int := (m.map (·.2)).sum

/-- Replace the value stored at the first entry with the given key
(the model of a Go map write to an existing key). -/
def updateA {α β : Type} [DecidableEq α] : List (α × β) → α → β → List (α × β)
  | [], _, _ => []
  | kv :: rest, k, v => if kv.1 = k then (kv.1, v) :: rest else kv :: updateA rest k v

/-- Add `v` to the entry at key `k`, inserting `(k, v)` if the key is absent:
the model of Go's `m[k] += v` (which inserts the zero value first). -/
def bumpBy {α : Type} [DecidableEq α] : List (α × Int) → α → Int → List (α × Int)
  | [], k, v => [(k, v)]
  | kv :: rest, k, v => if kv.1 = k then (kv.1, kv.2 + v) :: rest else kv :: bumpBy rest k v

/-- The per-index share assignment of `splitEqual`'s final loop: position `i`
of the sorted list receives `base + 1` when `i < rem` (here the countdown
`rem - i` is threaded as a parameter), else `base`. -/
def assignShares (base : Int) : Int → List String → List (String × Int)
  | _, [] => []
  | rem, p :: rest => (p, if 0 < rem then base + 1 else base) :: assignShares base (rem - 1) rest

/-- `splitEqual` from groups/group.go: at least two names required; `base`
and `rem` via Go's truncated division; names sorted ascending; the first
`rem` sorted names get one extra unit. -/
def splitEqual (totalMicroCents : Int) (names : List String) : Except String (List (String × Int)) :=
  if names.length ≤ 1 then Except.error "length of the people must be atleast 2"
  else
    let n : Int := names.length
    let base := totalMicroCents.tdiv n
    let rem := totalMicroCents.tmod n
    let sorted := List.insertionSort strLE names
    Except.ok (assignShares base rem sorted)

/-- The per-participant record built inside `splitByPercent` / `splitByWeights`. -/
structure SplitItem where
  name : String
  raw : ℚ
  base : Int
  frac : ℚ
  deriving DecidableEq, Repr

/-- The comparison used by `sort.Slice` in both remainder distributions:
larger fractional remainder first, ties by ascending name. -/
def itemLE (a b : SplitItem) : Prop :=
  b.frac < a.frac ∨ (a.frac = b.frac ∧ strLE a.name b.name)

instance : DecidableRel itemLE := fun a b => by
  unfold itemLE; infer_instance

/-- The remainder-distribution loop
`for i := 0; i < rem; i++ { shares[items[i%len(items)].name]++ }`:
`r` counts the remaining iterations, `i` the loop counter. -/
def distribute (order : List String) : Nat → Nat → List (String × Int) → List (String × Int)
  | 0, _, shares => shares
  | r + 1, i, shares => distribute order r (i + 1) (bumpBy shares (order.getD (i % order.length) "") 1)

/-- `splitByPercent` from groups/group.go: reject when the percentage sum is
farther than 0.01 from 100; floor each raw share; hand out the leftover units
in order of descending fractional remainder (ties by ascending name),
wrapping around. -/
def splitByPercent (totalMicroCents : Int) (perc : List (String × ℚ)) : Except String (List (String × Int)) :=
  let sum := sumQ (perc.map (·.2))
  if mkRat 1 100 < ratAbs (ratSub sum 100) then Except.error "percentages must sum to 100"
  else
    let items := perc.map (fun kv =>
      let raw := ratMul (ratDiv kv.2 100) ((totalMicroCents : Int) : ℚ)
      let base := ratFloor raw
      SplitItem.mk kv.1 raw base (ratSub raw ((base : Int) : ℚ)))
    let used := (items.map (·.base)).sum
    let rem := totalMicroCents - used
    let sorted := List.insertionSort itemLE items
    let shares := sorted.map (fun it => (it.name, it.base))
    Except.ok (distribute (sorted.map (·.name)) rem.toNat 0 shares)

/-- `splitByWeights` from groups/group.go: any negative weight is rejected
first, then a non-positive weight sum; zero-weight entries are skipped
entirely; the rest get the same floor-plus-remainder distribution. -/
def splitByWeights (totalMicroCents : Int) (w : List (String × ℚ)) : Except String (List (String × Int)) :=
  if w.any (fun kv => decide (kv.2 < 0)) then Except.error "weights must be >= 0"
  else
    let sumW := sumQ (w.map (·.2))
    if sumW ≤ 0 then Except.error "sum of weights must be > 0"
    else
      let items := (w.filter (fun kv => decide (kv.2 ≠ 0))).map (fun kv =>
        let raw := ratMul (ratDiv kv.2 sumW) ((totalMicroCents : Int) : ℚ)
        let base := ratFloor raw
        SplitItem.mk kv.1 raw base (ratSub raw ((base : Int) : ℚ)))
      let used := (items.map (·.base)).sum
      let rem := totalMicroCents - used
      let sorted := List.insertionSort itemLE items
      let shares := sorted.map (fun it => (it.name, it.base))
      Except.ok (distribute (sorted.map (·.name)) rem.toNat 0 shares)

/-- One directed edge of the debt graph: the Go `edge` struct fused with its
`EdgeMetadata` payload (the creation timestamp is dropped — no claim
mentions it). -/
structure EdgeRec where
  toKey : String
  amountInMicroCents : Int
  expenseId : Nat
  deriving DecidableEq, Repr

/-- The `Expense` input struct (the `ID` field lives in the group's expense
log, keyed by id, rather than inside this record). -/
structure Expense where
  totalMicroCents : Int
  paidBy : String
  description : String
  splitMethod : String
  splitPercentages : List (String × ℚ)
  splitWeights : List (String × ℚ)
  deriving DecidableEq, Repr

/-- The `Group` struct together with its internal `graph`: `people` maps a
canonical key to the display name, `nodes` is the adjacency map. -/
structure GroupState where
  name : String
  people : List (String × String)
  nodes : List (String × List EdgeRec)
  expenses : List (Nat × Expense)
  expenseIdCounter : Nat
  deriving DecidableEq, Repr

/-- ASCII letter test, the `[A-Za-z]` class of the Go name patterns. -/
def isAsciiLetter (c : Char) : Bool :=
  (decide ('A' ≤ c) && decide (c ≤ 'Z')) || (decide ('a' ≤ c) && decide (c ≤ 'z'))

/-- The person-name pattern `^[A-Za-z][A-Za-z_ -]{0,31}$`. -/
def personNameOk (s : String) : Bool :=
  match s.toList with
  | [] => false
  | c :: rest =>
    isAsciiLetter c && decide (rest.length ≤ 31) &&
      rest.all (fun d => isAsciiLetter d || d == '_' || d == ' ' || d == '-')

/-- The group-name pattern `^[A-Za-z][A-Za-z_-]{0,31}$` (no space allowed). -/
def groupNameOk (s : String) : Bool :=
  match s.toList with
  | [] => false
  | c :: rest =>
    isAsciiLetter c && decide (rest.length ≤ 31) &&
      rest.all (fun d => isAsciiLetter d || d == '_' || d == '-')

/-- `NewGroup` from groups/group.go. -/
def NewGroup (name : String) : Except String GroupState :=
  let trimmed := strTrim name
  if !groupNameOk trimmed then Except.error "invalid group name"
  else Except.ok (GroupState.mk trimmed [] [] [] 0)

/-- `graph.addNode`: reject an empty (after trim) or already-present key,
otherwise create the node with no edges. -/
def addNode (nodes : List (String × List EdgeRec)) (node : String) : Except String (List (String × List EdgeRec)) :=
  let node := strTrim node
  if node = "" then Except.error "node name cannot be empty"
  else if (lookupA nodes node).isSome then Except.error "node already exists in graph"
  else Except.ok (nodes ++ [(node, [])])

/-- `graph.addEdge`: both endpoints must exist; append the new edge to the
`from` node's list. -/
def addEdge (nodes : List (String × List EdgeRec)) (fromKey toKey : String) (amount : Int) (eid : Nat) : Except String (List (String × List EdgeRec)) :=
  match lookupA nodes fromKey with
  | none => Except.error "from-node does not exist in the graph"
  | some edgeSlice =>
    if (lookupA nodes toKey).isNone then Except.error "to-node does not exist in the graph"
    else Except.ok (updateA nodes fromKey (edgeSlice ++ [EdgeRec.mk toKey amount eid]))

/-- `Group.AddPerson`: validate the display name, reject a duplicate
canonical key, add the graph node, and register the person. -/
def AddPerson (g : GroupState) (name : String) : Except String GroupState :=
  let displayName := strTrim name
  if !personNameOk displayName then Except.error "invalid person name"
  else
    let key := normalizeName displayName
    if (lookupA g.people key).isSome then Except.error "person already exists in group"
    else
      match addNode g.nodes key with
      | Except.error msg => Except.error msg
      | Except.ok nodes => Except.ok { g with people := g.people ++ [(key, displayName)], nodes := nodes }

/-- `validateSplitMethod`: the method must be equal, percentage or weights. -/
def validateSplitMethod (m : String) : Except String Unit :=
  if m = "equal" ∨ m = "percentage" ∨ m = "weights" then Except.ok ()
  else Except.error "split method must be one of equal|percentage|weights"

/-- Worker of `normalizeSplitMap`: canonicalize each key, rejecting an empty
canonical name or a collision with a previously produced key. -/
def normAcc : List (String × ℚ) → List (String × ℚ) → Except String (List (String × ℚ))
  | acc, [] => Except.ok acc
  | acc, kv :: rest =>
    let key := normalizeName kv.1
    if key = "" then Except.error "split map contains empty name"
    else if (lookupA acc key).isSome then Except.error "duplicate name in split map after normalization"
    else normAcc (acc ++ [(key, kv.2)]) rest

/-- `normalizeSplitMap` from groups/group.go. -/
def normalizeSplitMap (input : List (String × ℚ)) : Except String (List (String × ℚ)) :=
  normAcc [] input

/-- The `switch e.SplitMethod` dispatch of `AddExpense`. `validateSplitMethod`
has already restricted the method to the three named cases, so the final
branch is unreachable there; it is modelled as the same validation error. -/
def computeShares (total : Int) (method : String) (names : List String) (percs weights : List (String × ℚ)) : Except String (List (String × Int)) :=
  if method = "equal" then splitEqual total names
  else if method = "percentage" then splitByPercent total percs
  else if method = "weights" then splitByWeights total weights
  else Except.error "split method must be one of equal|percentage|weights"

/-- The defensive graph/membership consistency re-check of `AddExpense`:
equal sizes and mutual containment of `people` and graph nodes. -/
def syncCheck (g : GroupState) : Bool :=
  decide (g.people.length = g.nodes.length) &&
    g.people.all (fun kv => (lookupA g.nodes kv.1).isSome) &&
    g.nodes.all (fun kv => (lookupA g.people kv.1).isSome)

/-- The edge-creation loop at the end of `AddExpense`: for every member key
except the payer that has a computed share, add an edge member→payer.
An `addEdge` failure surfaces the error with the state mutated so far,
exactly as the Go code would. -/
def addEdgesLoop (g : GroupState) (names : List String) (payer : String) (shares : List (String × Int)) (eid : Nat) : GroupState × Except String Nat :=
  match names with
  | [] => (g, Except.ok eid)
  | k :: rest =>
    if k = payer then addEdgesLoop g rest payer shares eid
    else
      match lookupA shares k with
      | none => addEdgesLoop g rest payer shares eid
      | some owed =>
        match addEdge g.nodes k payer owed eid with
        | Except.error msg => (g, Except.error msg)
        | Except.ok nodes => addEdgesLoop { g with nodes := nodes } rest payer shares eid

/-- `Group.AddExpense`, returning the post-call state together with either
the assigned expense id or the error. Every validation failure happens
before any group mutation; the commit point is the id-counter increment. -/
def AddExpense (g : GroupState) (e : Expense) : GroupState × Except String Nat :=
  if e.totalMicroCents ≤ 0 then (g, Except.error "expense TotalMicroCents cannot be 0 or negative")
  else
    let desc := strTrim e.description
    if desc = "" then (g, Except.error "expense description cannot be empty")
    else
      match validateSplitMethod e.splitMethod with
      | Except.error msg => (g, Except.error msg)
      | Except.ok _ =>
        if g.people.length ≤ 1 then (g, Except.error "group must contain atleast 2 people to add an expense")
        else
          let paidByKey := normalizeName e.paidBy
          match lookupA g.people paidByKey with
          | none => (g, Except.error "expense PaidBy person must be in the group")
          | some payerName =>
            match normalizeSplitMap e.splitPercentages with
            | Except.error msg => (g, Except.error msg)
            | Except.ok np =>
              if !np.all (fun kv => (lookupA g.people kv.1).isSome) then
                (g, Except.error "expense split_percentages name not in the group")
              else
                match normalizeSplitMap e.splitWeights with
                | Except.error msg => (g, Except.error msg)
                | Except.ok nw =>
                  if !nw.all (fun kv => (lookupA g.people kv.1).isSome) then
                    (g, Except.error "expense split_weights name not in the group")
                  else
                    let names := g.people.map (·.1)
                    match computeShares e.totalMicroCents e.splitMethod names np nw with
                    | Except.error msg => (g, Except.error msg)
                    | Except.ok shares =>
                      if syncCheck g then
                        let eid := g.expenseIdCounter + 1
                        let stored := { e with description := desc, paidBy := payerName,
                                               splitPercentages := np, splitWeights := nw }
                        let committed := { g with expenseIdCounter := eid,
                                                  expenses := g.expenses ++ [(eid, stored)] }
                        addEdgesLoop committed names paidByKey shares eid
                      else (g, Except.error "graph/people out of sync")

/-- Number of registered members (`len(g.people)`). -/
def memberCount (g : GroupState) : Nat := g.people.length

/-- Number of stored expenses (`len(g.expenses)`). -/
def expenseCount (g : GroupState) : Nat := g.expenses.length

/-- Total number of edges in the debt graph. -/
def edgeCount (g : GroupState) : Nat := (g.nodes.map (fun kv => kv.2.length)).sum

/-- Sum of the amounts of the edges in `es` pointing to `b`. -/
def matchSum (es : List EdgeRec) (b : String) : Int :=
  ((es.filter (fun e => e.toKey == b)).map (·.amountInMicroCents)).sum

/-- Sum of the edge amounts from `fromKey` to `toKey`: the first summation
loop of `getMoneyTobePaid` (a missing node yields the empty edge list). -/
def edgeSum (nodes : List (String × List EdgeRec)) (fromKey toKey : String) : Int :=
  matchSum ((lookupA nodes fromKey).getD []) toKey

/-- The net balance in micro-cents: edge amounts from→to minus to→from,
the signed quantity `sum - sum2` computed inside `getMoneyTobePaid`. -/
def netBalance (nodes : List (String × List EdgeRec)) (fromKey toKey : String) : Int :=
  edgeSum nodes fromKey toKey - edgeSum nodes toKey fromKey

/-- `getMoneyTobePaid`: net the two directed sums, convert micro-cents to
cents, zero out anything below one cent, convert to dollars. -/
def getMoneyTobePaid (nodes : List (String × List EdgeRec)) (fromKey toKey : String) : ℚ :=
  let sum := edgeSum nodes fromKey toKey
  let sum2 := edgeSum nodes toKey fromKey
  let cents : ℚ := ratDiv (((sum - sum2 : Int) : Int) : ℚ) 1000
  let cents := if cents < 1 then 0 else cents
  ratDiv cents 100

/-- The ordered pairs reported by `GetExpenseDetails`: every ordered pair of
distinct graph nodes whose `getMoneyTobePaid` amount is strictly positive,
with that amount. -/
def reportedPairs (g : GroupState) : List (String × String × ℚ) :=
  (g.nodes.map (·.1)).flatMap (fun a =>
    (g.nodes.map (·.1)).filterMap (fun b =>
      if a = b then none
      else
        let amount := getMoneyTobePaid g.nodes a b
        if 0 < amount then some (a, b, amount) else none))

/-- `Group.displayName`: the stored display name, or the key itself. -/
def displayName (g : GroupState) (key : String) : String :=
  match lookupA g.people key with
  | some n => n
  | none => key

/-- `GetExpenseDetails`: each reported pair rendered as the Go map entry
`"<from> to pay <to>" ↦ amount` (display names). -/
def GetExpenseDetails (g : GroupState) : List (String × ℚ) :=
  (reportedPairs g).map (fun r => (displayName g r.1 ++ " to pay " ++ displayName g r.2.1, r.2.2))

/-- Go's `%q` applied to the names occurring here: the validated name
alphabet (letters, space, underscore, hyphen) needs no escaping, so `%q`
just wraps in double quotes. -/
def quoteName (s : String) : String := "\"" ++ s ++ "\""

/-- Two-digit rendering of a value below 100. -/
def pad2 (n : Nat) : String :=
  if n < 10 then "0" ++ toString n else toString n

/-- `formatMicroCentsAsDollars`: round half-up to whole cents with
`(micro+500)/1000` (Go's truncated division), then render
`Sprintf("$%.2f", float64(cents)/100)`. The decimal rendering is modelled
for the non-negative cents values produced by the only caller, which
filters out non-positive aggregates before formatting. -/
def formatMicroCentsAsDollars (micro : Int) : String :=
  let roundedCents := ((micro + 500).tdiv 1000).toNat
  "$" ++ toString (roundedCents / 100) ++ "." ++ pad2 (roundedCents % 100)

/-- The aggregation fold of `GetGraphDOT`: one pass over every edge of every
node, accumulating `edgeSums[(from, to)] += amount`. -/
def edgeSumsOf (nodes : List (String × List EdgeRec)) : List ((String × String) × Int) :=
  nodes.foldl (fun m kv => kv.2.foldl (fun m e => bumpBy m (kv.1, e.toKey) e.amountInMicroCents) m) []

/-- The edge-key order of `GetGraphDOT`: by from-key, ties by to-key. -/
def pairLE (a b : String × String) : Prop :=
  strLT a.1 b.1 ∨ (a.1 = b.1 ∧ strLE a.2 b.2)

instance : DecidableRel pairLE := fun a b => by
  unfold pairLE; infer_instance

/-- One DOT node declaration line. -/
def nodeLineFor (g : GroupState) (key : String) : String :=
  "  " ++ quoteName key ++ " [label=" ++ quoteName (displayName g key) ++ "];\n"

/-- One DOT edge declaration line. -/
def edgeLineFor (k : String × String) (micro : Int) : String :=
  "  " ++ quoteName k.1 ++ " -> " ++ quoteName k.2 ++ " [label=" ++ quoteName (formatMicroCentsAsDollars micro) ++ "];\n"

/-- `Group.GetGraphDOT`: header, node lines over the sorted member keys,
edge lines over the sorted aggregate keys skipping non-positive sums,
footer. -/
def GetGraphDOT (g : GroupState) : String :=
  let names := List.insertionSort strLE (g.people.map (·.1))
  let edgeSums := edgeSumsOf g.nodes
  let sortedKeys := List.insertionSort pairLE (edgeSums.map (·.1))
  "digraph " ++ quoteName g.name ++ " \x7b\n"
    ++ String.join (names.map (nodeLineFor g))
    ++ String.join (sortedKeys.filterMap (fun k =>
        let micro := lookupZ edgeSums k
        if micro ≤ 0 then none else some (edgeLineFor k micro)))
    ++ "\x7d\n"

/-- Modelled from the spec (section 4.7 Graph Exporter), for the refinement
comparison with `GetGraphDOT`: one node line per member sorted by canonical
key labelled with the display name, then one edge line per ordered pair of
member keys with strictly positive aggregate edge sum, sorted by from-key
then to-key, labelled with the round-half-up two-decimal dollar amount. -/
def GetGraphDOTSpec (g : GroupState) : String :=
  let memberKeys := List.insertionSort strLE (g.people.map (·.1))
  let pairs := List.insertionSort pairLE
    (((g.people.map (·.1)) ×ˢ (g.people.map (·.1))).filter
      (fun k => decide (0 < edgeSum g.nodes k.1 k.2)))
  "digraph " ++ quoteName g.name ++ " \x7b\n"
    ++ String.join (memberKeys.map (nodeLineFor g))
    ++ String.join (pairs.map (fun k => edgeLineFor k (edgeSum g.nodes k.1 k.2)))
    ++ "\x7d\n"

/-- Well-formedness of a group state, maintained by the Go code's
invariants: distinct member keys, the graph node keys are exactly the
member keys, and every edge points at a member. -/
def wfGroup (g : GroupState) : Prop :=
  (g.people.map (·.1)).Nodup ∧
    g.people.map (·.1) = g.nodes.map (·.1) ∧
    ∀ kv ∈ g.nodes, ∀ e ∈ kv.2, e.toKey ∈ g.people.map (·.1)

/-- Sum of the amounts of the edges in `es` carrying the given expense id. -/
def idSum (es : List EdgeRec) (eid : Nat) : Int :=
  ((es.filter (fun e => e.expenseId == eid)).map (·.amountInMicroCents)).sum

/-- Sum of the amounts of all edges carrying the given expense id. -/
def expenseEdgeSum (nodes : List (String × List EdgeRec)) (eid : Nat) : Int :=
  (nodes.map (fun kv => idSum kv.2 eid)).sum

instance (g : GroupState) : Decidable (wfGroup g) := by
  unfold wfGroup; infer_instance

/-- The spec's "trip" scenario group: members Alice, Bob, Charlie, no
expenses yet. -/
def tripGroup : GroupState :=
  GroupState.mk "trip"
    [("alice", "Alice"), ("bob", "Bob"), ("charlie", "Charlie")]
    [("alice", []), ("bob", []), ("charlie", [])] [] 0

/-- A two-member group with no expenses. -/
def pairGroup : GroupState :=
  GroupState.mk "trip" [("alice", "Alice"), ("bob", "Bob")]
    [("alice", []), ("bob", [])] [] 0

/-- A two-member group in which bob owes alice 2000 micro-cents (2 cents)
from expense 1. -/
def owedGroup : GroupState :=
  GroupState.mk "trip" [("alice", "Alice"), ("bob", "Bob")]
    [("alice", []), ("bob", [EdgeRec.mk "alice" 2000 1])] [] 1

/-- A lookup misses exactly when the key is absent. -/
theorem lookupA_eq_none {α β : Type} [DecidableEq α] (m : List (α × β)) (a : α) :
    lookupA m a = none ↔ a ∉ keysA m := by
  induction m with
  | nil => simp [lookupA, keysA]
  | cons kv rest ih =>
    by_cases h : kv.1 = a
    · simp [lookupA, keysA, h]
    · simp [lookupA, keysA, h, ih, Ne.symm h]

/-- A successful lookup returns an entry of the list. -/
theorem mem_of_lookupA {α β : Type} [DecidableEq α] {m : List (α × β)} {a : α} {v : β}
    (h : lookupA m a = some v) : (a, v) ∈ m := by
  induction m with
  | nil => simp [lookupA] at h
  | cons kv rest ih =>
    by_cases hk : kv.1 = a
    · simp [lookupA, hk] at h
      subst hk
      simp [← h]
    · simp [lookupA, hk] at h
      exact List.mem_cons_of_mem _ (ih h)

/-- A lookup succeeds exactly when the key is present. -/
theorem lookupA_isSome_iff {α β : Type} [DecidableEq α] (m : List (α × β)) (a : α) :
    (lookupA m a).isSome = true ↔ a ∈ keysA m := by
  rcases h : lookupA m a with _ | v
  · simpa using (lookupA_eq_none m a).mp h
  · simp only [Option.isSome_some, true_iff]
    exact List.mem_map.mpr ⟨(a, v), mem_of_lookupA h, rfl⟩

/-- The key list of a cons. -/
theorem keysA_cons {α β : Type} (kv : α × β) (m : List (α × β)) :
    keysA (kv :: m) = kv.1 :: keysA m := rfl

/-- The value total of a cons. -/
theorem sumVals_cons {α : Type} (kv : α × Int) (m : List (α × Int)) :
    sumVals (kv :: m) = kv.2 + sumVals m := by
  simp [sumVals]

/-- `bumpBy` changes exactly the addressed entry, by exactly `v`. -/
theorem bumpBy_lookupZ {α : Type} [DecidableEq α] (m : List (α × Int)) (k k' : α) (v : Int) :
    lookupZ (bumpBy m k v) k' = lookupZ m k' + (if k' = k then v else 0) := by
  induction m with
  | nil =>
    by_cases h : k' = k
    · subst h; simp [bumpBy, lookupZ, lookupA]
    · simp [bumpBy, lookupZ, lookupA, h, Ne.symm h]
  | cons kv rest ih =>
    by_cases h1 : kv.1 = k
    · by_cases h2 : kv.1 = k'
      · have h3 : k' = k := by rw [← h2, h1]
        simp [bumpBy, lookupZ, lookupA, h1, h2, h3]
      · have h3 : ¬(k = k') := by rw [← h1]; exact h2
        have h4 : ¬(k' = k) := fun hc => h3 hc.symm
        simp [bumpBy, lookupZ, lookupA, h1, h2, h3, h4]
    · by_cases h2 : kv.1 = k'
      · have h3 : ¬(k' = k) := fun hc => h1 (by rw [h2, hc])
        simp [bumpBy, lookupZ, lookupA, h1, h2, h3]
      · simpa [bumpBy, lookupZ, lookupA, h1, h2] using ih

/-- `bumpBy` adds exactly `v` to the total of the values. -/
theorem sumVals_bumpBy {α : Type} [DecidableEq α] (m : List (α × Int)) (k : α) (v : Int) :
    sumVals (bumpBy m k v) = sumVals m + v := by
  induction m with
  | nil => simp [bumpBy, sumVals]
  | cons kv rest ih =>
    by_cases h : kv.1 = k
    · simp [bumpBy, sumVals, h]; ring
    · simp only [bumpBy, if_neg h, sumVals, List.map_cons, List.sum_cons] at *
      rw [ih]; ring

/-- `bumpBy` at a present key does not change the key list. -/
theorem keysA_bumpBy_of_mem {α : Type} [DecidableEq α] {m : List (α × Int)} {k : α}
    (h : k ∈ keysA m) (v : Int) : keysA (bumpBy m k v) = keysA m := by
  induction m with
  | nil => simp [keysA] at h
  | cons kv rest ih =>
    by_cases h1 : kv.1 = k
    · simp [bumpBy, keysA_cons, h1]
    · have hrest : k ∈ keysA rest := by
        rw [keysA_cons, List.mem_cons] at h
        rcases h with h | h
        · exact absurd h.symm h1
        · exact h
      rw [bumpBy, if_neg h1, keysA_cons, keysA_cons, ih hrest]

/-- `bumpBy` with a non-negative increment preserves non-negativity of
every value. -/
theorem nonneg_bumpBy {α : Type} [DecidableEq α] {m : List (α × Int)} {k : α} {v : Int}
    (hv : 0 ≤ v) (h : ∀ kv ∈ m, 0 ≤ kv.2) : ∀ kv ∈ bumpBy m k v, 0 ≤ kv.2 := by
  induction m with
  | nil =>
    intro kv hkv
    simp [bumpBy] at hkv
    simp [hkv, hv]
  | cons kv0 rest ih =>
    intro kv hkv
    by_cases h1 : kv0.1 = k
    · simp [bumpBy, h1] at hkv
      rcases hkv with hkv | hkv
      · have h0 : 0 ≤ kv0.2 := h kv0 (List.mem_cons_self _ _)
        simp [hkv]
        positivity
      · exact h kv (List.mem_cons_of_mem _ hkv)
    · simp [bumpBy, h1] at hkv
      rcases hkv with hkv | hkv
      · exact hkv ▸ h kv0 (List.mem_cons_self _ _)
      · exact ih (fun x hx => h x (List.mem_cons_of_mem _ hx)) kv hkv

/-- The remainder loop adds exactly `r` units in total. -/
theorem sumVals_distribute (order : List String) (r i : Nat) (shares : List (String × Int)) :
    sumVals (distribute order r i shares) = sumVals shares + r := by
  induction r generalizing i shares with
  | zero => simp [distribute]
  | succ r ih =>
    simp only [distribute]
    rw [ih, sumVals_bumpBy]
    push_cast
    ring

/-- The remainder loop leaves the key list unchanged when it only ever hits
present keys. -/
theorem keysA_distribute (order : List String) (r i : Nat) (shares : List (String × Int))
    (hne : order ≠ []) (h : ∀ x ∈ order, x ∈ keysA shares) :
    keysA (distribute order r i shares) = keysA shares := by
  induction r generalizing i shares with
  | zero => simp [distribute]
  | succ r ih =>
    have hlen : 0 < order.length := List.length_pos.mpr hne
    have hmem : order.getD (i % order.length) "" ∈ order := by
      rw [List.getD_eq_getElem order "" (Nat.mod_lt i hlen)]
      exact List.getElem_mem _
    have hkey : order.getD (i % order.length) "" ∈ keysA shares := h _ hmem
    simp only [distribute]
    rw [ih (i + 1) _ (fun x hx => by rw [keysA_bumpBy_of_mem hkey]; exact h x hx),
      keysA_bumpBy_of_mem hkey]

/-- The remainder loop preserves non-negativity of every share. -/
theorem nonneg_distribute (order : List String) (r i : Nat) (shares : List (String × Int))
    (h : ∀ kv ∈ shares, 0 ≤ kv.2) : ∀ kv ∈ distribute order r i shares, 0 ≤ kv.2 := by
  induction r generalizing i shares with
  | zero => simpa [distribute] using h
  | succ r ih =>
    simp only [distribute]
    exact ih (i + 1) _ (nonneg_bumpBy (by norm_num) h)

/-- The assignment loop keeps the sorted names as the keys, in order. -/
theorem assignShares_map_fst (base rem : Int) (l : List String) :
    (assignShares base rem l).map (·.1) = l := by
  induction l generalizing rem with
  | nil => simp [assignShares]
  | cons p rest ih => simp [assignShares, ih]

/-- Share values once the countdown is exhausted: everyone gets `base`. -/
theorem sumVals_assignShares_nonpos (base : Int) (rem : Int) (l : List String)
    (h : rem ≤ 0) : sumVals (assignShares base rem l) = l.length * base := by
  induction l generalizing rem with
  | nil => simp [assignShares, sumVals]
  | cons p rest ih =>
    have hneg : ¬(0 < rem) := not_lt.mpr h
    rw [assignShares, if_neg hneg, sumVals_cons, ih (rem - 1) (by omega)]
    simp only [List.length_cons]
    push_cast
    ring

/-- Total of the equal-split assignment when the countdown fits the list. -/
theorem sumVals_assignShares (base : Int) (rem : Int) (l : List String)
    (h0 : 0 ≤ rem) (h1 : rem ≤ l.length) :
    sumVals (assignShares base rem l) = l.length * base + rem := by
  induction l generalizing rem with
  | nil =>
    simp only [List.length_nil, Nat.cast_zero] at h1
    have : rem = 0 := le_antisymm h1 h0
    simp [assignShares, sumVals, this]
  | cons p rest ih =>
    by_cases hpos : 0 < rem
    · rw [assignShares, if_pos hpos, sumVals_cons,
        ih (rem - 1) (by omega) (by simp only [List.length_cons] at h1; push_cast at h1 ⊢; omega)]
      simp only [List.length_cons]
      push_cast
      ring
    · have hz : rem = 0 := le_antisymm (not_lt.mp hpos) h0
      subst hz
      rw [assignShares, if_neg hpos, sumVals_cons,
        sumVals_assignShares_nonpos base (0 - 1) rest (by omega)]
      simp only [List.length_cons]
      push_cast
      ring

/-- The assignment loop written positionally: entry `i` of the list gets
`base+1` exactly when `i < rem`. -/
theorem assignShares_enumFrom (base rem : Int) (l : List String) (i : Nat) :
    assignShares base (rem - (i : Int)) l =
      (List.enumFrom i l).map (fun p => (p.2, if (p.1 : Int) < rem then base + 1 else base)) := by
  induction l generalizing i with
  | nil => simp [assignShares]
  | cons p rest ih =>
    simp only [assignShares, List.enumFrom_cons, List.map_cons]
    have hc : rem - (i : Int) - 1 = rem - ((i + 1 : Nat) : Int) := by push_cast; ring
    rw [hc, ih (i + 1)]
    congr 2
    simp [sub_pos]

/-- The assignment loop written over `enum`. -/
theorem assignShares_enum (base rem : Int) (l : List String) :
    assignShares base rem l =
      l.enum.map (fun p => (p.2, if (p.1 : Int) < rem then base + 1 else base)) := by
  have := assignShares_enumFrom base rem l 0
  simpa [List.enum_eq_enumFrom] using this

/-- C2 counterexample: at total −1 with two names, Go's truncated division
gives base 0 and remainder −1, so both shares are 0 and the shares do not
sum to the total, contradicting the claim's "for every total T". -/
theorem splitEqual_negative_total_cex :
    splitEqual (-1) ["a", "b"] = Except.ok [("a", 0), ("b", 0)] ∧
    sumVals [("a", (0 : Int)), ("b", 0)] ≠ (-1) := by
  refine ⟨by decide, by decide⟩

/-- C2 (amended to non-negative totals, keeping the claim's distinct keys):
with at most one name `splitEqual` fails; with at least two distinct names
(the only inputs on which a positional share list coincides with Go's share
map) and a non-negative total it returns, in ascending key order, `base+1`
for the first `total tmod n` sorted keys and `base` for the rest, so the
shares sum to the total. -/
theorem splitEqual_amended (total : Int) (names : List String) :
    (names.length ≤ 1 → splitEqual total names = Except.error "length of the people must be atleast 2") ∧
    (names.Nodup → 2 ≤ names.length → 0 ≤ total →
      splitEqual total names = Except.ok
        ((List.insertionSort strLE names).enum.map
          (fun p => (p.2, if (p.1 : Int) < total.tmod (names.length : Int)
            then total.tdiv (names.length : Int) + 1 else total.tdiv (names.length : Int)))) ∧
      sumVals
        ((List.insertionSort strLE names).enum.map
          (fun p => (p.2, if (p.1 : Int) < total.tmod (names.length : Int)
            then total.tdiv (names.length : Int) + 1 else total.tdiv (names.length : Int)))) = total) := by
  constructor
  · intro h
    simp [splitEqual, h]
  · intro hnd hlen htotal
    have hnot : ¬(names.length ≤ 1) := by omega
    have hsorted_len : (List.insertionSort strLE names).length = names.length :=
      List.length_insertionSort _ names
    have hassign := assignShares_enum (total.tdiv (names.length : Int))
      (total.tmod (names.length : Int)) (List.insertionSort strLE names)
    constructor
    · simp only [splitEqual, if_neg hnot]
      rw [hassign]
    · rw [← hassign]
      have hn : (0 : Int) < (names.length : Int) := by
        have : 2 ≤ names.length := hlen
        omega
      have h0 : 0 ≤ total.tmod (names.length : Int) := Int.tmod_nonneg _ htotal
      have h1 : total.tmod (names.length : Int) ≤
          ((List.insertionSort strLE names).length : Int) := by
        rw [hsorted_len]
        exact le_of_lt (Int.tmod_lt_of_pos total hn)
      rw [sumVals_assignShares _ _ _ h0 h1, hsorted_len]
      have := Int.tmod_add_tdiv total (names.length : Int)
      linarith [this]

/-- C2 witness: a concrete failing one-name call, and a concrete
three-name split of 7 ascending-sorted as a=3, b=2, c=2, summing to 7. -/
theorem splitEqual_amended_witness :
    splitEqual 7 ["b", "a", "c"] = Except.ok [("a", 3), ("b", 2), ("c", 2)] ∧
    sumVals [("a", (3 : Int)), ("b", 2), ("c", 2)] = 7 ∧
    splitEqual 7 ["a"] = Except.error "length of the people must be atleast 2" := by
  have h := splitEqual_amended 7 ["b", "a", "c"]
  have h2 := (h.2 (by decide) (by decide) (by decide))
  have herr := (splitEqual_amended 7 ["a"]).1 (by decide)
  refine ⟨?_, ?_, herr⟩
  · rw [h2.1]
    decide
  · have h3 := h2.2
    rw [show (List.insertionSort strLE ["b", "a", "c"]).enum.map
        (fun p => (p.2, if (p.1 : Int) < Int.tmod 7 ((["b", "a", "c"] : List String).length : Int)
          then Int.tdiv 7 ((["b", "a", "c"] : List String).length : Int) + 1
          else Int.tdiv 7 ((["b", "a", "c"] : List String).length : Int))) =
        [("a", (3 : Int)), ("b", 2), ("c", 2)] by decide] at h3
    exact h3

/-- C6 counterexample: for the trip group and an equal split of 10,000,000,
the code gives alice 3,333,334 and bob and charlie 3,333,333 each — exactly
one member receives 3,333,334 and nobody receives 3,333,332, contradicting
the claimed two-and-one distribution. -/
theorem equal_split_scenario_cex :
    splitEqual 10000000 (tripGroup.people.map (·.1)) =
      Except.ok [("alice", 3333334), ("bob", 3333333), ("charlie", 3333333)] ∧
    (List.filter (fun kv => kv.2 == (3333334 : Int))
      [("alice", (3333334 : Int)), ("bob", 3333333), ("charlie", 3333333)]).length = 1 ∧
    (List.filter (fun kv => kv.2 == (3333332 : Int))
      [("alice", (3333334 : Int)), ("bob", 3333333), ("charlie", 3333333)]).length = 0 := by
  refine ⟨by decide, by decide, by decide⟩

/-- C6 (amended): building the trip group through the public operations and
splitting 10,000,000 equally gives shares summing to 10,000,000, the
lexicographically smallest key (alice) receiving 3,333,334 and the other
two receiving 3,333,333 each. -/
theorem equal_split_scenario_amended :
    ((NewGroup "trip").bind (fun g => (AddPerson g "Alice").bind (fun g =>
      (AddPerson g "Bob").bind (fun g => AddPerson g "Charlie")))) = Except.ok tripGroup ∧
    splitEqual 10000000 (tripGroup.people.map (·.1)) =
      Except.ok [("alice", 3333334), ("bob", 3333333), ("charlie", 3333333)] ∧
    sumVals [("alice", (3333334 : Int)), ("bob", 3333333), ("charlie", 3333333)] = 10000000 := by
  refine ⟨by decide, by decide, by decide⟩

/-- The tolerance gate of `splitByPercent`, rewritten in field terms. -/
theorem percentCond_iff (perc : List (String × ℚ)) :
    (mkRat 1 100 < ratAbs (ratSub (sumQ (perc.map (·.2))) 100)) ↔
      (1/100 < |(perc.map (·.2)).sum - 100|) := by
  rw [ratAbs_eq, ratSub_eq, sumQ_eq, Rat.mkRat_eq_divInt, Rat.divInt_eq_div]
  norm_num

/-- C10: `splitByPercent` fails exactly when the percentage sum is farther
than 0.01 from 100; in particular (second conjunct) an input with a
negative percentage whose values sum to 100 succeeds and returns a share
map containing a negative share, with no per-entry sign check. -/
theorem splitByPercent_error_iff :
    (∀ (total : Int) (perc : List (String × ℚ)),
      (∃ msg, splitByPercent total perc = Except.error msg) ↔
        1/100 < |(perc.map (·.2)).sum - 100|) ∧
    splitByPercent 100 [("a", mkRat (-10) 1), ("b", 110)] =
      Except.ok [("a", -10), ("b", 110)] := by
  constructor
  · intro total perc
    constructor
    · rintro ⟨msg, hmsg⟩
      by_contra hnot
      have hcond : ¬(mkRat 1 100 < ratAbs (ratSub (sumQ (perc.map (·.2))) 100)) := by
        rw [percentCond_iff]; exact hnot
      simp only [splitByPercent, if_neg hcond] at hmsg
      exact Except.noConfusion hmsg
    · intro h
      have hcond := (percentCond_iff perc).mpr h
      exact ⟨"percentages must sum to 100", by simp only [splitByPercent, if_pos hcond]⟩
  · decide

/-- C1 counterexample: percentages 100.005 pass the ±0.01 tolerance but the
shares overshoot the total (1,000,050 instead of 1,000,000) because the
negative leftover is never taken back; and the in-tolerance input
{a: −10, b: 110} produces a negative share. -/
theorem splitByPercent_claim_cex :
    |(([("a", mkRat 20001 200)] : List (String × ℚ)).map (·.2)).sum - 100| ≤ 1/100 ∧
    splitByPercent 1000000 [("a", mkRat 20001 200)] = Except.ok [("a", 1000050)] ∧
    sumVals [("a", (1000050 : Int))] ≠ 1000000 ∧
    (([("a", mkRat (-10) 1), ("b", 110)] : List (String × ℚ)).map (·.2)).sum = 100 ∧
    splitByPercent 1000000 [("a", mkRat (-10) 1), ("b", 110)] =
      Except.ok [("a", -100000), ("b", 1100000)] ∧
    ¬(∀ kv ∈ [("a", (-100000 : Int)), ("b", 1100000)], 0 ≤ kv.2) := by
  refine ⟨?_, by decide, by decide, ?_, by decide, by decide⟩
  · simp only [List.map_cons, List.map_nil, List.sum_cons, List.sum_nil, add_zero]
    rw [Rat.mkRat_eq_divInt, Rat.divInt_eq_div, abs_le]
    constructor <;> norm_num
  · simp only [List.map_cons, List.map_nil, List.sum_cons, List.sum_nil, add_zero]
    rw [Rat.mkRat_eq_divInt, Rat.divInt_eq_div]
    norm_num

/-- The flattened share list of the two remainder-distributing splits sums
to `used + leftover`, hence to the total whenever `used ≤ total`. -/
theorem split_core_sum (items : List SplitItem) (total : Int)
    (hused : (items.map (·.base)).sum ≤ total) :
    sumVals (distribute ((List.insertionSort itemLE items).map (·.name))
      ((total - (items.map (·.base)).sum).toNat) 0
      ((List.insertionSort itemLE items).map (fun it => (it.name, it.base)))) = total := by
  have hperm : (List.insertionSort itemLE items).Perm items := List.perm_insertionSort _ _
  have hs0 : sumVals ((List.insertionSort itemLE items).map (fun it => (it.name, it.base))) =
      (items.map (·.base)).sum := by
    rw [sumVals, List.map_map]
    exact (hperm.map (·.base)).sum_eq
  rw [sumVals_distribute, hs0, Int.toNat_of_nonneg (sub_nonneg.mpr hused)]
  ring

/-- The key list of the distributed shares is a permutation of the item
names. -/
theorem split_core_keys {items : List SplitItem} {r i : Nat} (hne : items ≠ []) :
    (keysA (distribute ((List.insertionSort itemLE items).map (·.name)) r i
      ((List.insertionSort itemLE items).map (fun it => (it.name, it.base))))).Perm
      (items.map (·.name)) := by
  have hperm : (List.insertionSort itemLE items).Perm items := List.perm_insertionSort _ _
  have hk0 : keysA ((List.insertionSort itemLE items).map (fun it => (it.name, it.base))) =
      (List.insertionSort itemLE items).map (·.name) := by
    rw [keysA, List.map_map]
    rfl
  have hne2 : (List.insertionSort itemLE items).map (·.name) ≠ [] := by
    intro hcon
    apply hne
    have := hperm.length_eq
    have h2 := congrArg List.length hcon
    simp only [List.length_map] at h2
    rw [h2] at this
    exact List.eq_nil_of_length_eq_zero this.symm
  rw [keysA_distribute _ r i _ hne2 (fun x hx => by rw [hk0]; exact hx), hk0]
  exact hperm.map (·.name)

/-- A list is permutation-equal to any list it equals. -/
theorem perm_of_list_eq {α : Type} {l₁ l₂ : List α} (h : l₁ = l₂) : l₁.Perm l₂ := by
  rw [h]

/-- Every distributed share is non-negative when every item base is. -/
theorem split_core_nonneg (items : List SplitItem) (r i : Nat)
    (h : ∀ it ∈ items, 0 ≤ it.base) :
    ∀ kv ∈ distribute ((List.insertionSort itemLE items).map (·.name)) r i
      ((List.insertionSort itemLE items).map (fun it => (it.name, it.base))), 0 ≤ kv.2 := by
  have hperm : (List.insertionSort itemLE items).Perm items := List.perm_insertionSort _ _
  apply nonneg_distribute
  intro kv hkv
  rcases List.mem_map.mp hkv with ⟨it, hit, rfl⟩
  exact h it (hperm.mem_iff.mp hit)

/-- C1 (amended): `splitByPercent` rejects a sum farther than 0.01 from 100;
and for percentages with non-negative values summing into [99.99, 100]
(the under-100 side of the tolerance band) and a positive total, it returns
a share map over the same participants with non-negative shares summing to
the total exactly. -/
theorem splitByPercent_amended (total : Int) (perc : List (String × ℚ)) :
    (1/100 < |(perc.map (·.2)).sum - 100| →
      splitByPercent total perc = Except.error "percentages must sum to 100") ∧
    ((∀ kv ∈ perc, 0 ≤ kv.2) → 9999/100 ≤ (perc.map (·.2)).sum →
      (perc.map (·.2)).sum ≤ 100 → 0 < total →
      ∃ shares, splitByPercent total perc = Except.ok shares ∧
        (shares.map (·.1)).Perm (perc.map (·.1)) ∧
        (∀ kv ∈ shares, 0 ≤ kv.2) ∧
        sumVals shares = total) := by
  constructor
  · intro h
    have hcond := (percentCond_iff perc).mpr h
    simp only [splitByPercent, if_pos hcond]
  · intro hnn hlo hhi hT
    have hTQ : (0 : ℚ) ≤ ((total : Int) : ℚ) := by exact_mod_cast hT.le
    have hcond : ¬(mkRat 1 100 < ratAbs (ratSub (sumQ (perc.map (·.2))) 100)) := by
      rw [percentCond_iff, not_lt, abs_le]
      constructor <;> linarith
    have hbase : ∀ kv ∈ perc,
        ratFloor (ratMul (ratDiv kv.2 100) ((total : Int) : ℚ)) =
          ⌊kv.2 / 100 * ((total : Int) : ℚ)⌋ := by
      intro kv _
      rw [ratFloor_eq, ratMul_eq, ratDiv_eq]
    have hne : perc ≠ [] := by
      intro hcon
      rw [hcon] at hlo
      simp at hlo
      linarith
    simp only [splitByPercent, if_neg hcond]
    refine ⟨_, rfl, ?_, ?_, ?_⟩
    · refine List.Perm.trans (split_core_keys (by simpa using hne)) (perm_of_list_eq ?_)
      rw [List.map_map]
      exact List.map_congr_left (fun kv _ => rfl)
    · apply split_core_nonneg
      intro it hit
      rcases List.mem_map.mp hit with ⟨kv, hkv, rfl⟩
      simp only
      rw [hbase kv hkv]
      apply Int.floor_nonneg.mpr
      exact mul_nonneg (div_nonneg (hnn kv hkv) (by norm_num)) hTQ
    · apply split_core_sum
      have hmap : (perc.map (fun kv =>
          SplitItem.mk kv.1 (ratMul (ratDiv kv.2 100) ((total : Int) : ℚ))
            (ratFloor (ratMul (ratDiv kv.2 100) ((total : Int) : ℚ)))
            (ratSub (ratMul (ratDiv kv.2 100) ((total : Int) : ℚ))
              ((ratFloor (ratMul (ratDiv kv.2 100) ((total : Int) : ℚ)) : Int) : ℚ)))).map (·.base)
          = perc.map (fun kv => ⌊kv.2 / 100 * ((total : Int) : ℚ)⌋) := by
        rw [List.map_map]
        exact List.map_congr_left (fun kv hkv => hbase kv hkv)
      rw [hmap]
      have hcast : (((perc.map (fun kv => ⌊kv.2 / 100 * ((total : Int) : ℚ)⌋)).sum : Int) : ℚ) =
          (perc.map (fun kv => ((⌊kv.2 / 100 * ((total : Int) : ℚ)⌋ : Int) : ℚ))).sum := by
        rw [show ((((perc.map (fun kv => ⌊kv.2 / 100 * ((total : Int) : ℚ)⌋)).sum : Int) : ℚ)) =
          (Int.castRingHom ℚ) ((perc.map (fun kv => ⌊kv.2 / 100 * ((total : Int) : ℚ)⌋)).sum) from rfl,
          map_list_sum, List.map_map]
        rfl
      have hle1 : (perc.map (fun kv => ((⌊kv.2 / 100 * ((total : Int) : ℚ)⌋ : Int) : ℚ))).sum ≤
          (perc.map (fun kv => kv.2 / 100 * ((total : Int) : ℚ))).sum :=
        List.sum_le_sum (fun kv _ => Int.floor_le _)
      have heq2 : (perc.map (fun kv => kv.2 / 100 * ((total : Int) : ℚ))).sum =
          (perc.map (·.2)).sum * (((total : Int) : ℚ) / 100) := by
        rw [show (perc.map (fun kv => kv.2 / 100 * ((total : Int) : ℚ))) =
            (perc.map (fun kv => kv.2 * (((total : Int) : ℚ) / 100))) from
          List.map_congr_left (fun kv _ => by ring)]
        exact List.sum_map_mul_right perc (·.2) _
      have hle3 : (perc.map (·.2)).sum * (((total : Int) : ℚ) / 100) ≤
          100 * (((total : Int) : ℚ) / 100) :=
        mul_le_mul_of_nonneg_right hhi (by positivity)
      have heq4 : (100 : ℚ) * (((total : Int) : ℚ) / 100) = ((total : Int) : ℚ) :=
        mul_div_cancel₀ _ (by norm_num)
      have : (((perc.map (fun kv => ⌊kv.2 / 100 * ((total : Int) : ℚ)⌋)).sum : Int) : ℚ) ≤
          ((total : Int) : ℚ) := by
        rw [hcast]
        calc (perc.map (fun kv => ((⌊kv.2 / 100 * ((total : Int) : ℚ)⌋ : Int) : ℚ))).sum ≤
            (perc.map (fun kv => kv.2 / 100 * ((total : Int) : ℚ))).sum := hle1
          _ = (perc.map (·.2)).sum * (((total : Int) : ℚ) / 100) := heq2
          _ ≤ 100 * (((total : Int) : ℚ) / 100) := hle3
          _ = ((total : Int) : ℚ) := heq4
      exact_mod_cast this

/-- C1 witness: percentages {a: 0.5, b: 99.5} (sum exactly 100) of a
1,000,000 total give shares 5,000 and 995,000 summing to the total, and a
sum of 50 is rejected. -/
theorem splitByPercent_amended_witness :
    splitByPercent 1000000 [("a", mkRat 1 2), ("b", mkRat 199 2)] =
      Except.ok [("a", 5000), ("b", 995000)] ∧
    sumVals [("a", (5000 : Int)), ("b", 995000)] = 1000000 ∧
    splitByPercent 5 [("a", 50)] = Except.error "percentages must sum to 100" := by
  have hsum : (([("a", mkRat 1 2), ("b", mkRat 199 2)] : List (String × ℚ)).map (·.2)).sum = 100 := by
    simp only [List.map_cons, List.map_nil, List.sum_cons, List.sum_nil, add_zero]
    rw [Rat.mkRat_eq_divInt, Rat.divInt_eq_div, Rat.mkRat_eq_divInt, Rat.divInt_eq_div]
    norm_num
  obtain ⟨shares, hok, hperm2, hnn2, hsum2⟩ :=
    (splitByPercent_amended 1000000 [("a", mkRat 1 2), ("b", mkRat 199 2)]).2
      (by decide) (by rw [hsum]; norm_num) (le_of_eq hsum) (by decide)
  have hconc : splitByPercent 1000000 [("a", mkRat 1 2), ("b", mkRat 199 2)] =
      Except.ok [("a", 5000), ("b", 995000)] := by decide
  have hshares : shares = [("a", (5000 : Int)), ("b", 995000)] :=
    Except.ok.inj (hok.symm.trans hconc)
  refine ⟨hconc, ?_, (splitByPercent_amended 5 [("a", 50)]).1 ?_⟩
  · rw [← hshares]
    exact hsum2
  · simp only [List.map_cons, List.map_nil, List.sum_cons, List.sum_nil, add_zero]
    norm_num

/-- Dropping the zero-valued entries does not change the value sum. -/
theorem sum_filter_nonzero (w : List (String × ℚ)) :
    ((w.filter (fun kv => decide (kv.2 ≠ 0))).map (·.2)).sum = (w.map (·.2)).sum := by
  induction w with
  | nil => rfl
  | cons kv rest ih =>
    rw [List.filter_cons]
    by_cases h : kv.2 = 0
    · rw [if_neg (by simpa using h), List.map_cons, List.sum_cons, ih, h, zero_add]
    · rw [if_pos (by simpa using h), List.map_cons, List.map_cons, List.sum_cons,
        List.sum_cons, ih]

/-- In a list with pairwise-distinct keys, two entries with the same key
are the same entry. -/
theorem eq_of_nodup_keys {α β : Type} {m : List (α × β)} (h : (m.map (·.1)).Nodup)
    {kv kv' : α × β} (h1 : kv ∈ m) (h2 : kv' ∈ m) (heq : kv.1 = kv'.1) : kv = kv' := by
  induction m with
  | nil => simp at h1
  | cons a rest ih =>
    simp only [List.map_cons, List.nodup_cons] at h
    rcases List.mem_cons.mp h1 with rfl | h1r
    · rcases List.mem_cons.mp h2 with rfl | h2r
      · rfl
      · exact absurd (heq ▸ List.mem_map.mpr ⟨kv', h2r, rfl⟩) h.1
    · rcases List.mem_cons.mp h2 with rfl | h2r
      · exact absurd (heq ▸ List.mem_map.mpr ⟨kv, h1r, rfl⟩ : kv'.1 ∈ rest.map (·.1)) h.1
      · exact ih h.2 h1r h2r

/-- C3: `splitByWeights` rejects any negative weight, then a non-positive
weight sum; otherwise (distinct keys, positive total) zero-weight
participants get no entry at all and the returned shares sum to the total
exactly. -/
theorem splitByWeights_spec (total : Int) (w : List (String × ℚ)) :
    ((∃ kv ∈ w, kv.2 < 0) → splitByWeights total w = Except.error "weights must be >= 0") ∧
    ((∀ kv ∈ w, 0 ≤ kv.2) → (w.map (·.2)).sum ≤ 0 →
      splitByWeights total w = Except.error "sum of weights must be > 0") ∧
    ((∀ kv ∈ w, 0 ≤ kv.2) → 0 < (w.map (·.2)).sum → (w.map (·.1)).Nodup → 0 < total →
      ∃ shares, splitByWeights total w = Except.ok shares ∧
        (∀ kv ∈ w, kv.2 = 0 → lookupA shares kv.1 = none) ∧
        sumVals shares = total) := by
  refine ⟨?_, ?_, ?_⟩
  · rintro ⟨kv, hkv, hneg⟩
    have hany : w.any (fun kv => decide (kv.2 < 0)) = true :=
      List.any_eq_true.mpr ⟨kv, hkv, by simpa using hneg⟩
    simp [splitByWeights, hany]
  · intro hnn hsum
    have hanyf : w.any (fun kv => decide (kv.2 < 0)) = false := by
      rw [List.any_eq_false]
      intro kv hkv
      simpa using not_lt.mpr (hnn kv hkv)
    have hsw : sumQ (w.map (·.2)) ≤ 0 := by rw [sumQ_eq]; exact hsum
    simp [splitByWeights, hanyf, hsw]
  · intro hnn hpos hnd hT
    have hTQ : (0 : ℚ) ≤ ((total : Int) : ℚ) := by exact_mod_cast hT.le
    have hanyf : w.any (fun kv => decide (kv.2 < 0)) = false := by
      rw [List.any_eq_false]
      intro kv hkv
      simpa using not_lt.mpr (hnn kv hkv)
    have hswpos : ¬(sumQ (w.map (·.2)) ≤ 0) := by
      rw [sumQ_eq]
      exact not_le.mpr hpos
    have hS0 : (w.map (·.2)).sum ≠ 0 := ne_of_gt hpos
    have hfilne : w.filter (fun kv => decide (kv.2 ≠ 0)) ≠ [] := by
      intro hcon
      have := sum_filter_nonzero w
      rw [hcon] at this
      simp at this
      exact hS0 this.symm
    have hbase : ∀ kv ∈ w.filter (fun kv => decide (kv.2 ≠ 0)),
        ratFloor (ratMul (ratDiv kv.2 (sumQ (w.map (·.2)))) ((total : Int) : ℚ)) =
          ⌊kv.2 / (w.map (·.2)).sum * ((total : Int) : ℚ)⌋ := by
      intro kv _
      rw [ratFloor_eq, ratMul_eq, ratDiv_eq, sumQ_eq]
    simp only [splitByWeights, hanyf, Bool.false_eq_true, if_false, if_neg hswpos]
    refine ⟨_, rfl, ?_, ?_⟩
    · intro kv hkv hkv0
      rw [lookupA_eq_none]
      intro hmem
      have hperm := (split_core_keys (by simpa using hfilne)).mem_iff.mp hmem
      rw [List.map_map] at hperm
      rcases List.mem_map.mp hperm with ⟨kv', hkv', hkeq⟩
      have hkv'w := List.mem_filter.mp hkv'
      have : kv' = kv := eq_of_nodup_keys hnd hkv'w.1 hkv (by simpa using hkeq)
      rw [this] at hkv'w
      have := hkv'w.2
      simp [hkv0] at this
    · apply split_core_sum
      have hmap : ((w.filter (fun kv => decide (kv.2 ≠ 0))).map (fun kv =>
          SplitItem.mk kv.1 (ratMul (ratDiv kv.2 (sumQ (w.map (·.2)))) ((total : Int) : ℚ))
            (ratFloor (ratMul (ratDiv kv.2 (sumQ (w.map (·.2)))) ((total : Int) : ℚ)))
            (ratSub (ratMul (ratDiv kv.2 (sumQ (w.map (·.2)))) ((total : Int) : ℚ))
              ((ratFloor (ratMul (ratDiv kv.2 (sumQ (w.map (·.2)))) ((total : Int) : ℚ)) : Int) : ℚ)))).map (·.base)
          = (w.filter (fun kv => decide (kv.2 ≠ 0))).map
              (fun kv => ⌊kv.2 / (w.map (·.2)).sum * ((total : Int) : ℚ)⌋) := by
        rw [List.map_map]
        exact List.map_congr_left (fun kv hkv => hbase kv hkv)
      rw [hmap]
      have hcast : ((((w.filter (fun kv => decide (kv.2 ≠ 0))).map
            (fun kv => ⌊kv.2 / (w.map (·.2)).sum * ((total : Int) : ℚ)⌋)).sum : Int) : ℚ) =
          ((w.filter (fun kv => decide (kv.2 ≠ 0))).map
            (fun kv => ((⌊kv.2 / (w.map (·.2)).sum * ((total : Int) : ℚ)⌋ : Int) : ℚ))).sum := by
        rw [show (((((w.filter (fun kv => decide (kv.2 ≠ 0))).map
            (fun kv => ⌊kv.2 / (w.map (·.2)).sum * ((total : Int) : ℚ)⌋)).sum : Int) : ℚ)) =
          (Int.castRingHom ℚ) (((w.filter (fun kv => decide (kv.2 ≠ 0))).map
            (fun kv => ⌊kv.2 / (w.map (·.2)).sum * ((total : Int) : ℚ)⌋)).sum) from rfl,
          map_list_sum, List.map_map]
        rfl
      have hle1 : ((w.filter (fun kv => decide (kv.2 ≠ 0))).map
            (fun kv => ((⌊kv.2 / (w.map (·.2)).sum * ((total : Int) : ℚ)⌋ : Int) : ℚ))).sum ≤
          ((w.filter (fun kv => decide (kv.2 ≠ 0))).map
            (fun kv => kv.2 / (w.map (·.2)).sum * ((total : Int) : ℚ))).sum :=
        List.sum_le_sum (fun kv _ => Int.floor_le _)
      have heq2 : ((w.filter (fun kv => decide (kv.2 ≠ 0))).map
            (fun kv => kv.2 / (w.map (·.2)).sum * ((total : Int) : ℚ))).sum =
          ((w.filter (fun kv => decide (kv.2 ≠ 0))).map (·.2)).sum *
            (((total : Int) : ℚ) / (w.map (·.2)).sum) := by
        rw [show ((w.filter (fun kv => decide (kv.2 ≠ 0))).map
            (fun kv => kv.2 / (w.map (·.2)).sum * ((total : Int) : ℚ))) =
            ((w.filter (fun kv => decide (kv.2 ≠ 0))).map
              (fun kv => kv.2 * (((total : Int) : ℚ) / (w.map (·.2)).sum))) from
          List.map_congr_left (fun kv _ => by ring)]
        exact List.sum_map_mul_right (w.filter (fun kv => decide (kv.2 ≠ 0))) (·.2) _
      have heq3 : ((w.filter (fun kv => decide (kv.2 ≠ 0))).map (·.2)).sum *
            (((total : Int) : ℚ) / (w.map (·.2)).sum) = ((total : Int) : ℚ) := by
        rw [sum_filter_nonzero]
        exact mul_div_cancel₀ _ hS0
      have hfin : ((((w.filter (fun kv => decide (kv.2 ≠ 0))).map
            (fun kv => ⌊kv.2 / (w.map (·.2)).sum * ((total : Int) : ℚ)⌋)).sum : Int) : ℚ) ≤
          ((total : Int) : ℚ) := by
        rw [hcast]
        calc ((w.filter (fun kv => decide (kv.2 ≠ 0))).map
              (fun kv => ((⌊kv.2 / (w.map (·.2)).sum * ((total : Int) : ℚ)⌋ : Int) : ℚ))).sum ≤
            ((w.filter (fun kv => decide (kv.2 ≠ 0))).map
              (fun kv => kv.2 / (w.map (·.2)).sum * ((total : Int) : ℚ))).sum := hle1
          _ = ((w.filter (fun kv => decide (kv.2 ≠ 0))).map (·.2)).sum *
              (((total : Int) : ℚ) / (w.map (·.2)).sum) := heq2
          _ = ((total : Int) : ℚ) := heq3
      exact_mod_cast hfin

/-- C3 witness: a negative weight is rejected, an all-zero weight map is
rejected, and the spec's scenario weights {alice: 0, bob: 4, charlie: 4}
of 10,000,000 give alice no entry and shares summing to the total. -/
theorem splitByWeights_spec_witness :
    splitByWeights 100 [("a", mkRat (-1) 1)] = Except.error "weights must be >= 0" ∧
    splitByWeights 100 [("a", 0)] = Except.error "sum of weights must be > 0" ∧
    (∃ shares, splitByWeights 10000000 [("alice", 0), ("bob", 4), ("charlie", 4)] =
        Except.ok shares ∧
      lookupA shares "alice" = none ∧ sumVals shares = 10000000) := by
  have hsum : (([("alice", 0), ("bob", 4), ("charlie", 4)] : List (String × ℚ)).map (·.2)).sum = 8 := by
    simp only [List.map_cons, List.map_nil, List.sum_cons, List.sum_nil, add_zero]
    norm_num
  refine ⟨(splitByWeights_spec 100 [("a", mkRat (-1) 1)]).1 ⟨("a", mkRat (-1) 1), by decide, by decide⟩,
    (splitByWeights_spec 100 [("a", 0)]).2.1 (by decide) ?_, ?_⟩
  · simp only [List.map_cons, List.map_nil, List.sum_cons, List.sum_nil, add_zero]
    norm_num
  · obtain ⟨shares, hok, hzero, hsum2⟩ :=
      (splitByWeights_spec 10000000 [("alice", 0), ("bob", 4), ("charlie", 4)]).2.2
        (by decide) (by rw [hsum]; norm_num) (by decide) (by decide)
    exact ⟨shares, hok, hzero ("alice", 0) (by decide) rfl, hsum2⟩

/-- `updateA` only changes a value, so lookup success is preserved. -/
theorem lookupA_updateA_isSome {α β : Type} [DecidableEq α] (m : List (α × β)) (k : α) (v : β)
    (k' : α) : (lookupA (updateA m k v) k').isSome = (lookupA m k').isSome := by
  induction m with
  | nil => rfl
  | cons kv rest ih =>
    by_cases h1 : kv.1 = k
    · by_cases hkk : k = k' <;> simp [updateA, lookupA, h1, hkk]
    · by_cases h2 : kv.1 = k'
      · have hkk : ¬(k' = k) := fun hc => h1 (h2.trans hc)
        simp [updateA, lookupA, h1, h2, hkk]
      · simp only [updateA, if_neg h1, lookupA, if_neg h2]
        exact ih

/-- The edge-creation loop of `AddExpense` cannot fail once every member
key and the payer key are graph nodes: it returns the new expense id. -/
theorem addEdgesLoop_no_error (names : List String) (g : GroupState) (payer : String)
    (shares : List (String × Int)) (eid : Nat)
    (hnames : ∀ k ∈ names, (lookupA g.nodes k).isSome = true)
    (hpayer : (lookupA g.nodes payer).isSome = true) :
    ∃ g', addEdgesLoop g names payer shares eid = (g', Except.ok eid) := by
  induction names generalizing g with
  | nil => exact ⟨g, rfl⟩
  | cons k rest ih =>
    by_cases hk : k = payer
    · simp only [addEdgesLoop, if_pos hk]
      exact ih g (fun x hx => hnames x (List.mem_cons_of_mem _ hx)) hpayer
    · simp only [addEdgesLoop, if_neg hk]
      rcases hshare : lookupA shares k with _ | owed
      · exact ih g (fun x hx => hnames x (List.mem_cons_of_mem _ hx)) hpayer
      · have hksome := hnames k (List.mem_cons_self _ _)
        rcases hnode : lookupA g.nodes k with _ | es
        · rw [hnode] at hksome
          simp at hksome
        · have hpnone : (lookupA g.nodes payer).isNone = false := by
            rw [Option.isNone_eq_false_iff]
            exact hpayer
          simp only [addEdge, hnode, hpnone, Bool.false_eq_true, if_false]
          refine ih { g with nodes := updateA g.nodes k (es ++ [EdgeRec.mk payer owed eid]) } ?_ ?_
          · intro x hx
            simp only
            rw [lookupA_updateA_isSome]
            exact hnames x (List.mem_cons_of_mem _ hx)
          · simp only
            rw [lookupA_updateA_isSome]
            exact hpayer

/-- The edge loop never surfaces an error when its preconditions hold. -/
theorem addEdgesLoop_error_absurd (names : List String) (g : GroupState) (payer : String)
    (shares : List (String × Int)) (eid : Nat) (g' : GroupState) (msg : String)
    (h : addEdgesLoop g names payer shares eid = (g', Except.error msg))
    (hnames : ∀ k ∈ names, (lookupA g.nodes k).isSome = true)
    (hpayer : (lookupA g.nodes payer).isSome = true) : False := by
  obtain ⟨g2, hloop⟩ := addEdgesLoop_no_error names g payer shares eid hnames hpayer
  rw [hloop] at h
  injection h with h1 h2
  exact Except.noConfusion h2

/-- A failing `AddExpense` leaves the group state exactly as it was: every
error return happens before the commit point, and after the defensive sync
check the edge loop cannot fail. -/
theorem addExpense_error_eq (g : GroupState) (e : Expense) (g' : GroupState) (msg : String)
    (h : AddExpense g e = (g', Except.error msg)) : g' = g := by
  simp only [AddExpense] at h
  split at h
  next => exact (congrArg Prod.fst h).symm
  next =>
    split at h
    next => exact (congrArg Prod.fst h).symm
    next =>
      split at h
      next => exact (congrArg Prod.fst h).symm
      next =>
        split at h
        next => exact (congrArg Prod.fst h).symm
        next =>
          split at h
          next => exact (congrArg Prod.fst h).symm
          next payerName hpayer =>
            split at h
            next => exact (congrArg Prod.fst h).symm
            next np hnp =>
              split at h
              next => exact (congrArg Prod.fst h).symm
              next =>
                split at h
                next => exact (congrArg Prod.fst h).symm
                next nw hnw =>
                  split at h
                  next => exact (congrArg Prod.fst h).symm
                  next =>
                    split at h
                    next => exact (congrArg Prod.fst h).symm
                    next shares hshares =>
                      split at h
                      next hsync =>
                        rw [syncCheck, Bool.and_eq_true, Bool.and_eq_true] at hsync
                        obtain ⟨⟨-, hppl⟩, -⟩ := hsync
                        rw [List.all_eq_true] at hppl
                        have hnames : ∀ k ∈ g.people.map (·.1),
                            (lookupA g.nodes k).isSome = true := by
                          intro k hk
                          rcases List.mem_map.mp hk with ⟨kv, hkv, rfl⟩
                          exact hppl kv hkv
                        have hpayer2 : (lookupA g.nodes (normalizeName e.paidBy)).isSome = true :=
                          hppl _ (mem_of_lookupA hpayer)
                        exact (addEdgesLoop_error_absurd _ _ _ _ _ _ _ h hnames hpayer2).elim
                      next => exact (congrArg Prod.fst h).symm

/-- C5: whenever `AddExpense` returns an error, the member count, expense
count and total edge count are unchanged. -/
theorem addExpense_error_atomic (g : GroupState) (e : Expense) (g' : GroupState) (msg : String)
    (h : AddExpense g e = (g', Except.error msg)) :
    memberCount g' = memberCount g ∧ expenseCount g' = expenseCount g ∧
      edgeCount g' = edgeCount g := by
  rw [addExpense_error_eq g e g' msg h]
  exact ⟨rfl, rfl, rfl⟩

/-- C5 witness: a concrete failing call (blank description) leaves all
three counts of the two-member group unchanged. -/
theorem addExpense_error_atomic_witness :
    memberCount (AddExpense pairGroup (Expense.mk 100 "Alice" " " "equal" [] [])).1 =
      memberCount pairGroup ∧
    expenseCount (AddExpense pairGroup (Expense.mk 100 "Alice" " " "equal" [] [])).1 =
      expenseCount pairGroup ∧
    edgeCount (AddExpense pairGroup (Expense.mk 100 "Alice" " " "equal" [] [])).1 =
      edgeCount pairGroup :=
  addExpense_error_atomic pairGroup (Expense.mk 100 "Alice" " " "equal" [] [])
    (AddExpense pairGroup (Expense.mk 100 "Alice" " " "equal" [] [])).1
    "expense description cannot be empty" (by decide)

/-- Replacing one node's edge list changes `expenseEdgeSum` by the
difference of the two lists' contributions. -/
theorem expenseEdgeSum_updateA (nodes : List (String × List EdgeRec)) (a : String)
    (es es' : List EdgeRec) (eid : Nat) (h : lookupA nodes a = some es) :
    expenseEdgeSum (updateA nodes a es') eid =
      expenseEdgeSum nodes eid + idSum es' eid - idSum es eid := by
  induction nodes with
  | nil => simp [lookupA] at h
  | cons kv rest ih =>
    by_cases h1 : kv.1 = a
    · rw [lookupA, if_pos h1] at h
      have hes : kv.2 = es := Option.some.inj h
      rw [updateA, if_pos h1]
      simp only [expenseEdgeSum, List.map_cons, List.sum_cons, hes]
      ring
    · rw [lookupA, if_neg h1] at h
      rw [updateA, if_neg h1]
      simp only [expenseEdgeSum, List.map_cons, List.sum_cons]
      rw [show (List.map (fun kv => idSum kv.2 eid) (updateA rest a es')).sum =
        expenseEdgeSum (updateA rest a es') eid from rfl,
        show (List.map (fun kv => idSum kv.2 eid) rest).sum = expenseEdgeSum rest eid from rfl,
        ih h]
      ring

/-- The new edge appended by `addEdge` carries the fresh id, so it raises
the id-filtered sum by exactly its amount. -/
theorem expenseEdgeSum_addEdge (nodes : List (String × List EdgeRec)) (fromKey toKey : String)
    (amount : Int) (eid : Nat) (nodes' : List (String × List EdgeRec))
    (h : addEdge nodes fromKey toKey amount eid = Except.ok nodes') :
    expenseEdgeSum nodes' eid = expenseEdgeSum nodes eid + amount := by
  unfold addEdge at h
  split at h
  next => exact Except.noConfusion h
  next es hlk =>
    split at h
    next => exact Except.noConfusion h
    next =>
      have hn : nodes' = updateA nodes fromKey (es ++ [EdgeRec.mk toKey amount eid]) :=
        (Except.ok.inj h).symm
      rw [hn, expenseEdgeSum_updateA nodes fromKey es _ eid hlk]
      have : idSum (es ++ [EdgeRec.mk toKey amount eid]) eid = idSum es eid + amount := by
        rw [idSum, List.filter_append, List.map_append, List.sum_append]
        simp [idSum]
      rw [this]
      ring

/-- The edge loop raises the id-filtered sum by the total of the shares of
the non-payer names it visits (0 for a name with no share entry). -/
theorem addEdgesLoop_delta (names : List String) (g : GroupState) (payer : String)
    (shares : List (String × Int)) (eid : Nat) (g' : GroupState) (r : Nat)
    (h : addEdgesLoop g names payer shares eid = (g', Except.ok r)) :
    expenseEdgeSum g'.nodes eid = expenseEdgeSum g.nodes eid +
      (names.map (fun k => if k = payer then 0 else lookupZ shares k)).sum := by
  induction names generalizing g with
  | nil =>
    have : g = g' := congrArg Prod.fst h
    rw [← this]
    simp
  | cons k rest ih =>
    simp only [addEdgesLoop] at h
    by_cases hk : k = payer
    · rw [if_pos hk] at h
      rw [ih g h]
      simp [hk]
    · rw [if_neg hk] at h
      split at h
      next hshare =>
        rw [ih g h]
        simp only [List.map_cons, List.sum_cons, if_neg hk, lookupZ, hshare, Option.getD_none]
        ring
      next owed hshare =>
        split at h
        next msg haddE => exact Except.noConfusion (congrArg Prod.snd h)
        next nodes2 haddE =>
          have hdelta := expenseEdgeSum_addEdge g.nodes k payer owed eid nodes2 haddE
          rw [ih { g with nodes := nodes2 } h]
          simp only at hdelta ⊢
          rw [hdelta]
          simp only [List.map_cons, List.sum_cons, if_neg hk, lookupZ, hshare, Option.getD_some]
          ring

/-- Filtering away another key's entries does not change a lookup. -/
theorem lookupA_filter_ne {α β : Type} [DecidableEq α] (m : List (α × β)) (a k : α)
    (hne : k ≠ a) : lookupA (m.filter (fun kv => decide (kv.1 ≠ a))) k = lookupA m k := by
  induction m with
  | nil => rfl
  | cons kv rest ih =>
    rw [List.filter_cons]
    by_cases h1 : kv.1 = a
    · rw [if_neg (by simpa using h1), lookupA, if_neg (fun hc : kv.1 = k => hne (hc ▸ h1)), ih]
    · rw [if_pos (by simpa using h1)]
      by_cases h2 : kv.1 = k
      · rw [lookupA, if_pos h2, lookupA, if_pos h2]
      · rw [lookupA, if_neg h2, lookupA, if_neg h2, ih]

/-- After filtering a key away, looking it up misses. -/
theorem lookupA_filter_self {α β : Type} [DecidableEq α] (m : List (α × β)) (a : α) :
    lookupA (m.filter (fun kv => decide (kv.1 ≠ a))) a = none := by
  induction m with
  | nil => rfl
  | cons kv rest ih =>
    rw [List.filter_cons]
    by_cases h1 : kv.1 = a
    · rw [if_neg (by simpa using h1)]
      exact ih
    · rw [if_pos (by simpa using h1), lookupA, if_neg h1]
      exact ih

/-- With pairwise-distinct keys, the value total splits into the entry at
one key plus the total of the other entries. -/
theorem sumVals_filter_payer {α : Type} [DecidableEq α] (m : List (α × Int)) (a : α)
    (hnd : (m.map (·.1)).Nodup) :
    sumVals m = sumVals (m.filter (fun kv => decide (kv.1 ≠ a))) + lookupZ m a := by
  induction m with
  | nil => rfl
  | cons kv rest ih =>
    simp only [List.map_cons, List.nodup_cons] at hnd
    rw [List.filter_cons]
    by_cases h1 : kv.1 = a
    · rw [if_neg (by simpa using h1), lookupZ, lookupA, if_pos h1, Option.getD_some]
      have hrest : rest.filter (fun kv => decide (kv.1 ≠ a)) = rest := by
        rw [List.filter_eq_self]
        intro kv' hkv'
        have : kv'.1 ≠ a := fun hc => hnd.1 (h1 ▸ hc ▸ List.mem_map.mpr ⟨kv', hkv', rfl⟩)
        simpa using this
      rw [hrest, sumVals_cons]
      ring
    · rw [if_pos (by simpa using h1), sumVals_cons, sumVals_cons, lookupZ, lookupA, if_neg h1,
        ih hnd.2]
      rw [lookupZ]
      ring

/-- Summing the looked-up value over a duplicate-free key list covering the
map gives the map's value total. -/
theorem sum_lookupZ_eq_sumVals (names : List String) (m : List (String × Int))
    (hnames : names.Nodup) (hm : (m.map (·.1)).Nodup) (hsub : ∀ kv ∈ m, kv.1 ∈ names) :
    (names.map (fun k => lookupZ m k)).sum = sumVals m := by
  induction names generalizing m with
  | nil =>
    cases m with
    | nil => rfl
    | cons kv rest => exact absurd (hsub kv (List.mem_cons_self _ _)) (by simp)
  | cons k rest ih =>
    simp only [List.nodup_cons] at hnames
    rcases hlk : lookupA m k with _ | v
    · have hknot : k ∉ keysA m := (lookupA_eq_none m k).mp hlk
      have hsub' : ∀ kv ∈ m, kv.1 ∈ rest := by
        intro kv hkv
        rcases List.mem_cons.mp (hsub kv hkv) with hc | hc
        · exact absurd (hc ▸ List.mem_map.mpr ⟨kv, hkv, rfl⟩) hknot
        · exact hc
      rw [List.map_cons, List.sum_cons, lookupZ, hlk, Option.getD_none, zero_add]
      exact ih m hnames.2 hm hsub'
    · have hcongr : ∀ x ∈ rest, lookupZ m x =
          lookupZ (m.filter (fun kv => decide (kv.1 ≠ k))) x := by
        intro x hx
        have hxk : x ≠ k := fun hc => hnames.1 (hc ▸ hx)
        rw [lookupZ, lookupZ, lookupA_filter_ne m k x hxk]
      have hnd' : ((m.filter (fun kv => decide (kv.1 ≠ k))).map (·.1)).Nodup :=
        ((List.filter_sublist m).map (·.1)).nodup hm
      have hsub' : ∀ kv ∈ m.filter (fun kv => decide (kv.1 ≠ k)), kv.1 ∈ rest := by
        intro kv hkv
        have hmem := List.mem_filter.mp hkv
        have hne : kv.1 ≠ k := by simpa using hmem.2
        rcases List.mem_cons.mp (hsub kv hmem.1) with hc | hc
        · exact absurd hc hne
        · exact hc
      rw [List.map_cons, List.sum_cons, List.map_congr_left hcongr,
        ih _ hnames.2 hnd' hsub', sumVals_filter_payer m k hm, lookupZ, hlk, Option.getD_some]
      ring

/-- Summing the looked-up value over a covering duplicate-free key list,
skipping one key, gives the value total minus that key's entry. -/
theorem sum_skip_payer (names : List String) (payer : String) (m : List (String × Int))
    (hnames : names.Nodup) (hm : (m.map (·.1)).Nodup) (hsub : ∀ kv ∈ m, kv.1 ∈ names) :
    (names.map (fun k => if k = payer then 0 else lookupZ m k)).sum =
      sumVals m - lookupZ m payer := by
  have hcongr : ∀ x ∈ names, (if x = payer then 0 else lookupZ m x) =
      lookupZ (m.filter (fun kv => decide (kv.1 ≠ payer))) x := by
    intro x _
    by_cases hx : x = payer
    · rw [if_pos hx, hx, lookupZ, lookupA_filter_self, Option.getD_none]
    · rw [if_neg hx, lookupZ, lookupZ, lookupA_filter_ne m payer x hx]
  have hnd' : ((m.filter (fun kv => decide (kv.1 ≠ payer))).map (·.1)).Nodup :=
    ((List.filter_sublist m).map (·.1)).nodup hm
  have hsub' : ∀ kv ∈ m.filter (fun kv => decide (kv.1 ≠ payer)), kv.1 ∈ names :=
    fun kv hkv => hsub kv (List.mem_filter.mp hkv).1
  rw [List.map_congr_left hcongr, sum_lookupZ_eq_sumVals names _ hnames hnd' hsub',
    sumVals_filter_payer m payer hm]
  ring

/-- The keys of a successful equal split are the sorted names. -/
theorem splitEqual_keys (total : Int) (names : List String) (shares : List (String × Int))
    (h : splitEqual total names = Except.ok shares) :
    shares.map (·.1) = List.insertionSort strLE names := by
  unfold splitEqual at h
  split at h
  next => exact Except.noConfusion h
  next =>
    rw [← Except.ok.inj h, assignShares_map_fst]

/-- The keys of a successful percentage split are (a permutation of) the
canonical keys of the percentage map. -/
theorem splitByPercent_keys (total : Int) (perc : List (String × ℚ))
    (shares : List (String × Int)) (h : splitByPercent total perc = Except.ok shares) :
    (shares.map (·.1)).Perm (perc.map (·.1)) := by
  simp only [splitByPercent] at h
  split at h
  next => exact Except.noConfusion h
  next hcond =>
    have hne : perc ≠ [] := by
      intro hcon
      rw [percentCond_iff] at hcond
      rw [hcon] at hcond
      simp only [List.map_nil, List.sum_nil, zero_sub, abs_neg] at hcond
      norm_num at hcond
    rw [← Except.ok.inj h]
    refine List.Perm.trans (split_core_keys (by simpa using hne)) (perm_of_list_eq ?_)
    rw [List.map_map]
    exact List.map_congr_left (fun kv _ => rfl)

/-- The keys of a successful weight split are (a permutation of) the keys
of the non-zero-weight entries. -/
theorem splitByWeights_keys (total : Int) (w : List (String × ℚ))
    (shares : List (String × Int)) (h : splitByWeights total w = Except.ok shares) :
    (shares.map (·.1)).Perm ((w.filter (fun kv => decide (kv.2 ≠ 0))).map (·.1)) := by
  simp only [splitByWeights] at h
  split at h
  next => exact Except.noConfusion h
  next =>
    split at h
    next => exact Except.noConfusion h
    next hsw =>
      have hfilne : w.filter (fun kv => decide (kv.2 ≠ 0)) ≠ [] := by
        intro hcon
        apply hsw
        rw [sumQ_eq, ← sum_filter_nonzero w, hcon]
        simp
      rw [← Except.ok.inj h]
      refine List.Perm.trans (split_core_keys (by simpa using hfilne)) (perm_of_list_eq ?_)
      rw [List.map_map]
      exact List.map_congr_left (fun kv _ => rfl)

/-- `normAcc` only ever appends a key it has checked to be fresh. -/
theorem normAcc_keys_nodup (input : List (String × ℚ)) :
    ∀ (acc out : List (String × ℚ)), normAcc acc input = Except.ok out →
      (acc.map (·.1)).Nodup → (out.map (·.1)).Nodup := by
  induction input with
  | nil =>
    intro acc out h hacc
    rw [← Except.ok.inj h]
    exact hacc
  | cons kv rest ih =>
    intro acc out h hacc
    simp only [normAcc] at h
    split at h
    next => exact Except.noConfusion h
    next =>
      split at h
      next => exact Except.noConfusion h
      next hlk =>
        refine ih _ _ h ?_
        rw [List.map_append, List.nodup_append]
        refine ⟨hacc, by simp, ?_⟩
        intro a ha hb
        simp only [List.map_cons, List.map_nil, List.mem_cons, List.not_mem_nil, or_false]
          at hb
        apply hlk
        subst hb
        exact (lookupA_isSome_iff acc (normalizeName kv.1)).mpr ha

/-- A successful `normalizeSplitMap` has pairwise-distinct canonical keys. -/
theorem normalizeSplitMap_keys_nodup (input out : List (String × ℚ))
    (h : normalizeSplitMap input = Except.ok out) : (out.map (·.1)).Nodup :=
  normAcc_keys_nodup input [] out h (by simp)

/-- A successful `computeShares` has pairwise-distinct keys drawn from the
member names, whichever method ran. -/
theorem computeShares_keys (total : Int) (method : String) (names : List String)
    (np nw : List (String × ℚ)) (shares : List (String × Int))
    (hnames : names.Nodup)
    (hnp_nd : (np.map (·.1)).Nodup) (hnp_sub : ∀ kv ∈ np, kv.1 ∈ names)
    (hnw_nd : (nw.map (·.1)).Nodup) (hnw_sub : ∀ kv ∈ nw, kv.1 ∈ names)
    (h : computeShares total method names np nw = Except.ok shares) :
    (shares.map (·.1)).Nodup ∧ ∀ kv ∈ shares, kv.1 ∈ names := by
  unfold computeShares at h
  split_ifs at h
  · have hk := splitEqual_keys total names shares h
    constructor
    · rw [hk]
      exact ((List.perm_insertionSort strLE names).nodup_iff).mpr hnames
    · intro kv hkv
      have hmm : kv.1 ∈ shares.map (·.1) := List.mem_map.mpr ⟨kv, hkv, rfl⟩
      rw [hk] at hmm
      exact (List.perm_insertionSort strLE names).mem_iff.mp hmm
  · have hk := splitByPercent_keys total np shares h
    refine ⟨hk.nodup_iff.mpr hnp_nd, ?_⟩
    intro kv hkv
    have hmm := hk.mem_iff.mp (List.mem_map.mpr ⟨kv, hkv, rfl⟩)
    rcases List.mem_map.mp hmm with ⟨kv', hkv', heq⟩
    exact heq ▸ hnp_sub kv' hkv'
  · have hk := splitByWeights_keys total nw shares h
    constructor
    · refine hk.nodup_iff.mpr ?_
      exact ((List.filter_sublist nw).map (·.1)).nodup hnw_nd
    · intro kv hkv
      have hmm := hk.mem_iff.mp (List.mem_map.mpr ⟨kv, hkv, rfl⟩)
      rcases List.mem_map.mp hmm with ⟨kv', hkv', heq⟩
      exact heq ▸ hnw_sub kv' (List.mem_filter.mp hkv').1

/-- The edge loop reports back exactly the id it was given. -/
theorem addEdgesLoop_ok_id (names : List String) (g : GroupState) (payer : String)
    (shares : List (String × Int)) (eid : Nat) (g' : GroupState) (r : Nat)
    (h : addEdgesLoop g names payer shares eid = (g', Except.ok r)) : r = eid := by
  induction names generalizing g with
  | nil => exact (Except.ok.inj (congrArg Prod.snd h)).symm
  | cons k rest ih =>
    simp only [addEdgesLoop] at h
    by_cases hk : k = payer
    · rw [if_pos hk] at h
      exact ih g h
    · rw [if_neg hk] at h
      split at h
      next => exact ih g h
      next owed hshare =>
        split at h
        next => exact Except.noConfusion (congrArg Prod.snd h)
        next nodes2 haddE => exact ih _ h

/-- C4 counterexample: a two-member equal split of total 2 paid by Alice
creates a single edge bob→alice of amount 1, so the edges of the expense
sum to 1, not to the total 2 — the payer's own share never becomes an
edge. -/
theorem addExpense_edge_total_cex :
    (AddExpense pairGroup (Expense.mk 2 "Alice" "x" "equal" [] [])).2 = Except.ok 1 ∧
    expenseEdgeSum (AddExpense pairGroup (Expense.mk 2 "Alice" "x" "equal" [] [])).1.nodes 1 = 1 ∧
    ((1 : Int) ≠ 2) := by
  refine ⟨by decide, by decide, by decide⟩

/-- C4 (amended): for every successful `AddExpense` from a state with
distinct member keys, the id-filtered edge sum grows by the total of the
computed shares minus the payer's own share (zero if the payer has no
entry) — not by the expense total itself, since the payer never receives
an edge. -/
theorem addExpense_edge_sum_amended (g : GroupState) (e : Expense) (g' : GroupState) (eid : Nat)
    (hnodup : (g.people.map (·.1)).Nodup)
    (h : AddExpense g e = (g', Except.ok eid)) :
    ∃ np nw shares,
      normalizeSplitMap e.splitPercentages = Except.ok np ∧
      normalizeSplitMap e.splitWeights = Except.ok nw ∧
      computeShares e.totalMicroCents e.splitMethod (g.people.map (·.1)) np nw =
        Except.ok shares ∧
      expenseEdgeSum g'.nodes eid =
        expenseEdgeSum g.nodes eid +
          (sumVals shares - lookupZ shares (normalizeName e.paidBy)) := by
  simp only [AddExpense] at h
  split at h
  next => exact Except.noConfusion (congrArg Prod.snd h)
  next =>
    split at h
    next => exact Except.noConfusion (congrArg Prod.snd h)
    next =>
      split at h
      next => exact Except.noConfusion (congrArg Prod.snd h)
      next =>
        split at h
        next => exact Except.noConfusion (congrArg Prod.snd h)
        next =>
          split at h
          next => exact Except.noConfusion (congrArg Prod.snd h)
          next payerName hpayer =>
            split at h
            next => exact Except.noConfusion (congrArg Prod.snd h)
            next np hnp =>
              split at h
              next => exact Except.noConfusion (congrArg Prod.snd h)
              next hnpcheck =>
                split at h
                next => exact Except.noConfusion (congrArg Prod.snd h)
                next nw hnw =>
                  split at h
                  next => exact Except.noConfusion (congrArg Prod.snd h)
                  next hnwcheck =>
                    split at h
                    next => exact Except.noConfusion (congrArg Prod.snd h)
                    next shares hshares =>
                      split at h
                      next hsync =>
                        have heid : eid = g.expenseIdCounter + 1 :=
                          addEdgesLoop_ok_id _ _ _ _ _ _ _ h
                        subst heid
                        refine ⟨np, nw, shares, hnp, hnw, hshares, ?_⟩
                        have hnp_sub : ∀ kv ∈ np, kv.1 ∈ g.people.map (·.1) := by
                          rw [Bool.not_eq_true', List.all_eq_false] at hnpcheck
                          push_neg at hnpcheck
                          intro kv hkv
                          exact (lookupA_isSome_iff g.people kv.1).mp (hnpcheck kv hkv)
                        have hnw_sub : ∀ kv ∈ nw, kv.1 ∈ g.people.map (·.1) := by
                          rw [Bool.not_eq_true', List.all_eq_false] at hnwcheck
                          push_neg at hnwcheck
                          intro kv hkv
                          exact (lookupA_isSome_iff g.people kv.1).mp (hnwcheck kv hkv)
                        obtain ⟨hsh_nd, hsh_sub⟩ := computeShares_keys e.totalMicroCents
                          e.splitMethod (g.people.map (·.1)) np nw shares hnodup
                          (normalizeSplitMap_keys_nodup _ _ hnp) hnp_sub
                          (normalizeSplitMap_keys_nodup _ _ hnw) hnw_sub hshares
                        have hdelta := addEdgesLoop_delta _ _ _ _ _ _ _ h
                        have hskip := sum_skip_payer (g.people.map (·.1))
                          (normalizeName e.paidBy) shares hnodup hsh_nd hsh_sub
                        rw [← hskip]
                        exact hdelta
                      next => exact Except.noConfusion (congrArg Prod.snd h)

/-- C4 witness: for the concrete two-member equal expense of total 2 paid
by Alice, the edge sum of the new expense equals the share total 2 minus
Alice's own share 1. -/
theorem addExpense_edge_sum_amended_witness :
    expenseEdgeSum (AddExpense pairGroup (Expense.mk 2 "Alice" "x" "equal" [] [])).1.nodes 1 =
      expenseEdgeSum pairGroup.nodes 1 +
        (sumVals [("alice", (1 : Int)), ("bob", 1)] -
          lookupZ [("alice", (1 : Int)), ("bob", 1)] (normalizeName "Alice")) := by
  obtain ⟨np, nw, shares, hnp, hnw, hcs, hdelta⟩ :=
    addExpense_edge_sum_amended pairGroup (Expense.mk 2 "Alice" "x" "equal" [] [])
      (AddExpense pairGroup (Expense.mk 2 "Alice" "x" "equal" [] [])).1 1
      (by decide) (by decide)
  have hnp0 : np = [] := Except.ok.inj (hnp.symm.trans (by decide))
  have hnw0 : nw = [] := Except.ok.inj (hnw.symm.trans (by decide))
  subst hnp0
  subst hnw0
  have hs : shares = [("alice", (1 : Int)), ("bob", 1)] :=
    Except.ok.inj (hcs.symm.trans (by decide))
  rw [← hs]
  exact hdelta

/-- `getMoneyTobePaid` in field terms: the net micro-cent balance scaled to
cents, floored to zero below one cent, scaled to dollars. -/
theorem getMoneyTobePaid_def (nodes : List (String × List EdgeRec)) (A B : String) :
    getMoneyTobePaid nodes A B =
      (if ((netBalance nodes A B : Int) : ℚ) / 1000 < 1 then 0
       else ((netBalance nodes A B : Int) : ℚ) / 1000) / 100 := by
  simp only [getMoneyTobePaid, netBalance, ratDiv_eq]

/-- Below the one-cent threshold the reported amount is zero. -/
theorem getMoneyTobePaid_of_lt (nodes : List (String × List EdgeRec)) (A B : String)
    (h : netBalance nodes A B < 1000) : getMoneyTobePaid nodes A B = 0 := by
  rw [getMoneyTobePaid_def]
  have hq : ((netBalance nodes A B : Int) : ℚ) / 1000 < 1 := by
    rw [div_lt_one (by norm_num)]
    exact_mod_cast h
  rw [if_pos hq]
  norm_num

/-- At or above one cent the exact scaled net is reported. -/
theorem getMoneyTobePaid_of_ge (nodes : List (String × List EdgeRec)) (A B : String)
    (h : 1000 ≤ netBalance nodes A B) :
    getMoneyTobePaid nodes A B = ((netBalance nodes A B : Int) : ℚ) / 1000 / 100 := by
  rw [getMoneyTobePaid_def]
  have hq : ¬(((netBalance nodes A B : Int) : ℚ) / 1000 < 1) := by
    rw [not_lt, le_div_iff₀ (by norm_num), one_mul]
    exact_mod_cast h
  rw [if_neg hq]

/-- The net balance is antisymmetric. -/
theorem netBalance_anti (nodes : List (String × List EdgeRec)) (A B : String) :
    netBalance nodes B A = -netBalance nodes A B := by
  rw [netBalance, netBalance]
  ring

/-- Membership in the reported settlement pairs, characterised. -/
theorem mem_reportedPairs (g : GroupState) (A B : String) (q : ℚ) :
    (A, B, q) ∈ reportedPairs g ↔
      (A ∈ g.nodes.map (·.1) ∧ B ∈ g.nodes.map (·.1) ∧ A ≠ B ∧
        0 < getMoneyTobePaid g.nodes A B ∧ q = getMoneyTobePaid g.nodes A B) := by
  simp only [reportedPairs, List.mem_flatMap, List.mem_filterMap]
  constructor
  · rintro ⟨a, ha, b, hb, heq⟩
    split_ifs at heq with h1 h2
    · simp only [Option.some.injEq, Prod.mk.injEq] at heq
      obtain ⟨rfl, rfl, rfl⟩ := heq
      exact ⟨ha, hb, h1, h2, rfl⟩
  · rintro ⟨hA, hB, hAB, hpos, rfl⟩
    exact ⟨A, hA, B, hB, by rw [if_neg hAB, if_pos hpos]⟩

/-- C7: the net balance nets the two directed edge sums, and the settlement
output never reports both directions of a pair: at least one direction's
amount is zero, and two opposite reported pairs are contradictory. -/
theorem settlement_antisymmetry (g : GroupState) (A B : String) :
    (netBalance g.nodes A B = edgeSum g.nodes A B - edgeSum g.nodes B A) ∧
    (getMoneyTobePaid g.nodes A B = 0 ∨ getMoneyTobePaid g.nodes B A = 0) ∧
    (∀ q q2, (A, B, q) ∈ reportedPairs g → (B, A, q2) ∈ reportedPairs g → False) := by
  refine ⟨rfl, ?_, ?_⟩
  · by_cases h : netBalance g.nodes A B < 1000
    · exact Or.inl (getMoneyTobePaid_of_lt g.nodes A B h)
    · refine Or.inr (getMoneyTobePaid_of_lt g.nodes B A ?_)
      rw [netBalance_anti]
      omega
  · intro q q2 h1 h2
    have hp1 := ((mem_reportedPairs g A B q).mp h1).2.2.2.1
    have hp2 := ((mem_reportedPairs g B A q2).mp h2).2.2.2.1
    by_cases h : netBalance g.nodes A B < 1000
    · rw [getMoneyTobePaid_of_lt g.nodes A B h] at hp1
      exact lt_irrefl 0 hp1
    · rw [getMoneyTobePaid_of_lt g.nodes B A (by rw [netBalance_anti]; omega)] at hp2
      exact lt_irrefl 0 hp2

/-- C7 witness: in the sample group where bob owes alice 2 cents, the
reversed pair is not reported. -/
theorem settlement_antisymmetry_witness :
    ("alice", "bob", mkRat 1 50) ∉ reportedPairs owedGroup := fun h =>
  (settlement_antisymmetry owedGroup "bob" "alice").2.2 (mkRat 1 50) (mkRat 1 50)
    (by decide) h

/-- C8: for members A and B, a net balance below 1000 micro-cents (one
cent) — including every non-positive net — yields amount zero and no
reported pair; a net of one cent or more is reported with the exact scaled
amount. -/
theorem settlement_threshold (g : GroupState) (A B : String)
    (hA : A ∈ g.nodes.map (·.1)) (hB : B ∈ g.nodes.map (·.1)) :
    (netBalance g.nodes A B < 1000 →
      getMoneyTobePaid g.nodes A B = 0 ∧ ∀ q, (A, B, q) ∉ reportedPairs g) ∧
    (1000 ≤ netBalance g.nodes A B →
      (A, B, ((netBalance g.nodes A B : Int) : ℚ) / 1000 / 100) ∈ reportedPairs g) := by
  constructor
  · intro h
    refine ⟨getMoneyTobePaid_of_lt g.nodes A B h, ?_⟩
    intro q hq
    have hp := ((mem_reportedPairs g A B q).mp hq).2.2.2.1
    rw [getMoneyTobePaid_of_lt g.nodes A B h] at hp
    exact lt_irrefl 0 hp
  · intro h
    have hAB : A ≠ B := by
      intro hc
      subst hc
      rw [netBalance, sub_self] at h
      omega
    have hgm := getMoneyTobePaid_of_ge g.nodes A B h
    have hpos : 0 < getMoneyTobePaid g.nodes A B := by
      rw [hgm]
      have : (0 : ℚ) < ((netBalance g.nodes A B : Int) : ℚ) := by
        exact_mod_cast lt_of_lt_of_le (by norm_num : (0 : Int) < 1000) h
      positivity
    exact (mem_reportedPairs g A B _).mpr ⟨hA, hB, hAB, hpos, hgm.symm⟩

/-- C8 witness: in the sample group the alice→bob net of −2000 yields a
zero amount, and the bob→alice net of 2000 (two cents) is reported. -/
theorem settlement_threshold_witness :
    getMoneyTobePaid owedGroup.nodes "alice" "bob" = 0 ∧
    ("bob", "alice", ((netBalance owedGroup.nodes "bob" "alice" : Int) : ℚ) / 1000 / 100) ∈
      reportedPairs owedGroup := by
  have h1 := settlement_threshold owedGroup "alice" "bob" (by decide) (by decide)
  have h2 := settlement_threshold owedGroup "bob" "alice" (by decide) (by decide)
  exact ⟨(h1.1 (by decide)).1, h2.2 (by decide)⟩

/-- Characters with equal code points are equal. -/
theorem charToNat_inj {c d : Char} (h : c.toNat = d.toNat) : c = d :=
  Char.ext (UInt32.ext h)

/-- The strict char-list order is irreflexive. -/
theorem charsLT_irrefl (a : List Char) : charsLT a a = false := by
  induction a with
  | nil => rfl
  | cons c cs ih => simp [charsLT, ih]

/-- The strict char-list order is asymmetric. -/
theorem charsLT_asymm (a b : List Char) (h1 : charsLT a b = true) (h2 : charsLT b a = true) :
    False := by
  induction a generalizing b with
  | nil =>
    cases b with
    | nil => exact Bool.noConfusion h2
    | cons d ds => exact Bool.noConfusion h2
  | cons c cs ih =>
    cases b with
    | nil => exact Bool.noConfusion h1
    | cons d ds =>
      rcases Nat.lt_trichotomy c.toNat d.toNat with hlt | heq | hgt
      · rw [charsLT, if_neg (by omega), if_pos hlt] at h2
        exact Bool.noConfusion h2
      · rw [charsLT, if_neg (by omega), if_neg (by omega)] at h1
        rw [charsLT, if_neg (by omega), if_neg (by omega)] at h2
        exact ih ds h1 h2
      · rw [charsLT, if_neg (by omega), if_pos hgt] at h1
        exact Bool.noConfusion h1

/-- The strict char-list order is transitive. -/
theorem charsLT_trans (a b c : List Char) (h1 : charsLT a b = true) (h2 : charsLT b c = true) :
    charsLT a c = true := by
  induction a generalizing b c with
  | nil =>
    cases b with
    | nil => exact Bool.noConfusion h1
    | cons d ds =>
      cases c with
      | nil => exact Bool.noConfusion h2
      | cons e es => rfl
  | cons x xs ih =>
    cases b with
    | nil => exact Bool.noConfusion h1
    | cons d ds =>
      cases c with
      | nil => exact Bool.noConfusion h2
      | cons e es =>
        rcases Nat.lt_trichotomy x.toNat d.toNat with hxd | hxd | hxd
        · rcases Nat.lt_trichotomy d.toNat e.toNat with hde | hde | hde
          · rw [charsLT, if_pos (by omega)]
          · rw [charsLT, if_pos (by omega)]
          · rw [charsLT, if_neg (by omega), if_pos hde] at h2
            exact Bool.noConfusion h2
        · rcases Nat.lt_trichotomy d.toNat e.toNat with hde | hde | hde
          · rw [charsLT, if_pos (by omega)]
          · rw [charsLT, if_neg (by omega), if_neg (by omega)] at h1 h2 ⊢
            exact ih ds es h1 h2
          · rw [charsLT, if_neg (by omega), if_pos hde] at h2
            exact Bool.noConfusion h2
        · rw [charsLT, if_neg (by omega), if_pos hxd] at h1
          exact Bool.noConfusion h1

/-- Non-strict is the negation of the reversed strict order. -/
theorem charsLE_eq_not_charsLT (a b : List Char) : charsLE a b = !charsLT b a := by
  induction a generalizing b with
  | nil =>
    cases b with
    | nil => rfl
    | cons d ds => rfl
  | cons c cs ih =>
    cases b with
    | nil => rfl
    | cons d ds =>
      rcases Nat.lt_trichotomy c.toNat d.toNat with h | h | h
      · rw [charsLE, if_pos h, charsLT, if_neg (by omega), if_pos h]
        rfl
      · rw [charsLE, if_neg (by omega), if_neg (by omega), charsLT,
          if_neg (by omega), if_neg (by omega)]
        exact ih ds
      · rw [charsLE, if_neg (by omega), if_pos h, charsLT, if_pos h]
        rfl

/-- Two char lists each at most the other are equal. -/
theorem charsLE_antisymm (a b : List Char) (h1 : charsLE a b = true) (h2 : charsLE b a = true) :
    a = b := by
  induction a generalizing b with
  | nil =>
    cases b with
    | nil => rfl
    | cons d ds => exact Bool.noConfusion h2
  | cons c cs ih =>
    cases b with
    | nil => exact Bool.noConfusion h1
    | cons d ds =>
      rcases Nat.lt_trichotomy c.toNat d.toNat with h | h | h
      · rw [charsLE, if_neg (by omega), if_pos h] at h2
        exact Bool.noConfusion h2
      · rw [charsLE, if_neg (by omega), if_neg (by omega)] at h1 h2
        rw [charToNat_inj h, ih ds h1 h2]
      · rw [charsLE, if_neg (by omega), if_pos h] at h1
        exact Bool.noConfusion h1

/-- The non-strict char-list order is transitive. -/
theorem charsLE_trans (a b c : List Char) (h1 : charsLE a b = true) (h2 : charsLE b c = true) :
    charsLE a c = true := by
  rw [charsLE_eq_not_charsLT, Bool.not_eq_true'] at h1 h2 ⊢
  by_contra hcon
  rw [Bool.not_eq_false] at hcon
  rcases hab : charsLT a b with _ | _
  · have heq : a = b := charsLE_antisymm a b
      (by rw [charsLE_eq_not_charsLT, h1, Bool.not_false])
      (by rw [charsLE_eq_not_charsLT, hab, Bool.not_false])
    rw [← heq] at h2
    rw [h2] at hcon
    exact Bool.noConfusion hcon
  · have hcb := charsLT_trans c a b hcon hab
    rw [h2] at hcb
    exact Bool.noConfusion hcb

/-- The non-strict char-list order is total. -/
theorem charsLE_total (a b : List Char) : charsLE a b = true ∨ charsLE b a = true := by
  rcases h : charsLT b a with _ | _
  · left
    rw [charsLE_eq_not_charsLT, h, Bool.not_false]
  · right
    rw [charsLE_eq_not_charsLT, Bool.not_eq_true']
    rcases h2 : charsLT a b with _ | _
    · rfl
    · exact (charsLT_asymm a b h2 h).elim

/-- Strings with equal char lists are equal. -/
theorem strOfToList_inj {a b : String} (h : a.toList = b.toList) : a = b :=
  String.ext h

instance : IsTrans (String × String) pairLE := by
  constructor
  intro a b c h1 h2
  rcases h1 with h1 | ⟨h1e, h1le⟩
  · rcases h2 with h2 | ⟨h2e, h2le⟩
    · exact Or.inl (charsLT_trans _ _ _ h1 h2)
    · exact Or.inl (h2e ▸ h1)
  · rcases h2 with h2 | ⟨h2e, h2le⟩
    · exact Or.inl (h1e ▸ h2)
    · exact Or.inr ⟨h1e.trans h2e, charsLE_trans _ _ _ h1le h2le⟩

instance : IsAntisymm (String × String) pairLE := by
  constructor
  intro a b h1 h2
  rcases h1 with h1 | ⟨h1e, h1le⟩
  · rcases h2 with h2 | ⟨h2e, h2le⟩
    · exact (charsLT_asymm _ _ h1 h2).elim
    · rw [← h2e] at h1
      have h1c : charsLT b.1.toList b.1.toList = true := h1
      rw [charsLT_irrefl] at h1c
      exact Bool.noConfusion h1c
  · rcases h2 with h2 | ⟨h2e, h2le⟩
    · rw [h1e] at h2
      have h2c : charsLT b.1.toList b.1.toList = true := h2
      rw [charsLT_irrefl] at h2c
      exact Bool.noConfusion h2c
    · have hfst : a.1 = b.1 := strOfToList_inj (congrArg String.toList h1e) ▸ h1e
      have hsnd : a.2 = b.2 := strOfToList_inj (charsLE_antisymm _ _ h1le h2le)
      exact Prod.ext hfst hsnd

instance : IsTotal (String × String) pairLE := by
  constructor
  intro a b
  rcases hf : charsLT a.1.toList b.1.toList with h1 | h1
  · rcases hg : charsLT b.1.toList a.1.toList with h2 | h2
    · have h1e : a.1 = b.1 := strOfToList_inj (charsLE_antisymm _ _
        (by rw [charsLE_eq_not_charsLT, hg, Bool.not_false])
        (by rw [charsLE_eq_not_charsLT, hf, Bool.not_false]))
      rcases charsLE_total a.2.toList b.2.toList with h | h
      · exact Or.inl (Or.inr ⟨h1e, h⟩)
      · exact Or.inr (Or.inr ⟨h1e.symm, h⟩)
    · exact Or.inr (Or.inl hg)
  · exact Or.inl (Or.inl hf)

/-- One edge's contribution to a directed pair sum. -/
theorem matchSum_cons (e : EdgeRec) (es : List EdgeRec) (b : String) :
    matchSum (e :: es) b = (if e.toKey = b then e.amountInMicroCents else 0) + matchSum es b := by
  rw [matchSum, List.filter_cons]
  by_cases h : e.toKey = b
  · rw [if_pos (by simpa using h), if_pos h, List.map_cons, List.sum_cons, matchSum]
  · rw [if_neg (by simpa using h), if_neg h, matchSum, zero_add]

/-- Folding one node's edges into the aggregate adds that node's matching
sum to every key addressed at that node, and nothing elsewhere. -/
theorem lookupZ_foldl_edges (es : List EdgeRec) (m : List ((String × String) × Int))
    (a : String) (k : String × String) :
    lookupZ (es.foldl (fun m e => bumpBy m (a, e.toKey) e.amountInMicroCents) m) k =
      lookupZ m k + (if k.1 = a then matchSum es k.2 else 0) := by
  induction es generalizing m with
  | nil =>
    rw [List.foldl_nil]
    by_cases h : k.1 = a
    · rw [if_pos h, matchSum]
      simp
    · rw [if_neg h, add_zero]
  | cons e rest ih =>
    rw [List.foldl_cons, ih, bumpBy_lookupZ, matchSum_cons]
    by_cases hka : k.1 = a
    · by_cases hk2 : k.2 = e.toKey
      · rw [if_pos (Prod.ext hka hk2), if_pos hka, if_pos hka, if_pos hk2.symm]
        ring
      · rw [if_neg (fun hc => hk2 (by rw [hc])), if_pos hka, if_pos hka,
          if_neg (fun hc => hk2 hc.symm)]
        ring
    · rw [if_neg (fun hc => hka (by rw [hc])), if_neg hka, if_neg hka]
      ring

/-- The whole aggregation fold, described pointwise. -/
theorem lookupZ_foldl_nodes (nodes : List (String × List EdgeRec))
    (m : List ((String × String) × Int)) (k : String × String) :
    lookupZ (nodes.foldl (fun m kv =>
        kv.2.foldl (fun m e => bumpBy m (kv.1, e.toKey) e.amountInMicroCents) m) m) k =
      lookupZ m k + (nodes.map (fun kv => if k.1 = kv.1 then matchSum kv.2 k.2 else 0)).sum := by
  induction nodes generalizing m with
  | nil => simp
  | cons kv rest ih =>
    rw [List.foldl_cons, ih, lookupZ_foldl_edges, List.map_cons, List.sum_cons]
    ring

/-- With duplicate-free node keys the pointwise description collapses to
the single matching node's `edgeSum`. -/
theorem contrib_eq_edgeSum (nodes : List (String × List EdgeRec)) (k : String × String)
    (hnd : (nodes.map (·.1)).Nodup) :
    (nodes.map (fun kv => if k.1 = kv.1 then matchSum kv.2 k.2 else 0)).sum =
      edgeSum nodes k.1 k.2 := by
  induction nodes with
  | nil => rfl
  | cons kv rest ih =>
    simp only [List.map_cons, List.nodup_cons] at hnd
    rw [List.map_cons, List.sum_cons]
    by_cases h : k.1 = kv.1
    · rw [if_pos h]
      have hrest : (rest.map (fun kv => if k.1 = kv.1 then matchSum kv.2 k.2 else 0)).sum = 0 := by
        apply List.sum_eq_zero
        intro x hx
        rcases List.mem_map.mp hx with ⟨kv2, hkv2, rfl⟩
        have : ¬(k.1 = kv2.1) := fun hc =>
          hnd.1 (h ▸ hc ▸ List.mem_map.mpr ⟨kv2, hkv2, rfl⟩)
        rw [if_neg this]
      rw [hrest, edgeSum, lookupA, if_pos h.symm, Option.getD_some, add_zero]
    · rw [if_neg h, zero_add, ih hnd.2, edgeSum, edgeSum, lookupA,
        if_neg (fun hc : kv.1 = k.1 => h hc.symm)]

/-- The aggregate map of `GetGraphDOT`, read pointwise. -/
theorem lookupZ_edgeSumsOf (nodes : List (String × List EdgeRec)) (k : String × String)
    (hnd : (nodes.map (·.1)).Nodup) :
    lookupZ (edgeSumsOf nodes) k = edgeSum nodes k.1 k.2 := by
  rw [edgeSumsOf, lookupZ_foldl_nodes, contrib_eq_edgeSum nodes k hnd]
  simp [lookupZ, lookupA]

/-- The key list after `bumpBy`: unchanged for a present key, extended by
the new key otherwise. -/
theorem keysA_bumpBy {α : Type} [DecidableEq α] (m : List (α × Int)) (k : α) (v : Int) :
    keysA (bumpBy m k v) = if k ∈ keysA m then keysA m else keysA m ++ [k] := by
  induction m with
  | nil =>
    rw [if_neg (by simp [keysA])]
    simp [bumpBy, keysA]
  | cons kv rest ih =>
    by_cases h : kv.1 = k
    · rw [if_pos (by rw [keysA_cons]; exact List.mem_cons.mpr (Or.inl h.symm))]
      show keysA (if kv.1 = k then (kv.1, kv.2 + v) :: rest else kv :: bumpBy rest k v) = _
      rw [if_pos h, keysA_cons, keysA_cons]
    · show keysA (if kv.1 = k then (kv.1, kv.2 + v) :: rest else kv :: bumpBy rest k v) = _
      rw [if_neg h, keysA_cons, ih]
      by_cases h2 : k ∈ keysA rest
      · rw [if_pos h2, if_pos (by rw [keysA_cons]; exact List.mem_cons.mpr (Or.inr h2)),
          keysA_cons]
      · rw [if_neg h2, if_neg (by
          rw [keysA_cons, List.mem_cons]
          rintro (hc | hc)
          · exact h hc.symm
          · exact h2 hc), keysA_cons, List.cons_append]

/-- `bumpBy` preserves duplicate-freedom of the keys. -/
theorem keysA_bumpBy_nodup {α : Type} [DecidableEq α] (m : List (α × Int)) (k : α) (v : Int)
    (h : (keysA m).Nodup) : (keysA (bumpBy m k v)).Nodup := by
  rw [keysA_bumpBy]
  by_cases h2 : k ∈ keysA m
  · rw [if_pos h2]
    exact h
  · rw [if_neg h2, List.nodup_append]
    refine ⟨h, by simp, ?_⟩
    intro a ha hc
    rw [List.mem_singleton] at hc
    exact h2 (hc ▸ ha)

/-- The inner aggregation fold preserves duplicate-free keys. -/
theorem foldl_edges_keys_nodup (es : List EdgeRec) (m : List ((String × String) × Int))
    (a : String) (h : (keysA m).Nodup) :
    (keysA (es.foldl (fun m e => bumpBy m (a, e.toKey) e.amountInMicroCents) m)).Nodup := by
  induction es generalizing m with
  | nil => exact h
  | cons e rest ih =>
    rw [List.foldl_cons]
    exact ih _ (keysA_bumpBy_nodup _ _ _ h)

/-- The aggregate map of `GetGraphDOT` has duplicate-free keys. -/
theorem edgeSumsOf_keys_nodup (nodes : List (String × List EdgeRec)) :
    (keysA (edgeSumsOf nodes)).Nodup := by
  rw [edgeSumsOf]
  suffices h : ∀ m : List ((String × String) × Int), (keysA m).Nodup →
      (keysA (nodes.foldl (fun m kv =>
        kv.2.foldl (fun m e => bumpBy m (kv.1, e.toKey) e.amountInMicroCents) m) m)).Nodup by
    exact h [] (by simp [keysA])
  induction nodes with
  | nil => exact fun m h => h
  | cons kv rest ih =>
    intro m h
    rw [List.foldl_cons]
    exact ih _ (foldl_edges_keys_nodup kv.2 m kv.1 h)

/-- A key with a non-zero aggregate is present in the map. -/
theorem mem_keysA_of_lookupZ_ne {α : Type} [DecidableEq α] (m : List (α × Int)) (a : α)
    (h : lookupZ m a ≠ 0) : a ∈ keysA m := by
  by_contra hc
  apply h
  rw [lookupZ, (lookupA_eq_none m a).mpr hc, Option.getD_none]

/-- A non-zero directed pair sum forces the from-node to exist. -/
theorem edgeSum_ne_mem_fst (nodes : List (String × List EdgeRec)) (a b : String)
    (h : edgeSum nodes a b ≠ 0) : a ∈ nodes.map (·.1) := by
  by_contra hc
  apply h
  rw [edgeSum, (lookupA_eq_none nodes a).mpr (by simpa [keysA] using hc), Option.getD_none,
    matchSum]
  rfl

/-- A non-zero directed pair sum exhibits an actual edge to `b`. -/
theorem edgeSum_ne_exists_edge (nodes : List (String × List EdgeRec)) (a b : String)
    (h : edgeSum nodes a b ≠ 0) :
    ∃ es, lookupA nodes a = some es ∧ ∃ e ∈ es, e.toKey = b := by
  rcases hlk : lookupA nodes a with _ | es
  · rw [edgeSum, hlk, Option.getD_none, matchSum] at h
    exact absurd rfl h
  · refine ⟨es, rfl, ?_⟩
    by_contra hno
    push_neg at hno
    apply h
    rw [edgeSum, hlk, Option.getD_some, matchSum]
    have : es.filter (fun e => e.toKey == b) = [] := by
      rw [List.filter_eq_nil]
      intro e he
      simpa using hno e he
    rw [this]
    rfl

/-- Threshold-`filterMap` is filter-then-map. -/
theorem filterMap_threshold (l : List (String × String)) (v : String × String → Int)
    (f : String × String → String) :
    (l.filterMap (fun k => if v k ≤ 0 then none else some (f k))) =
      (l.filter (fun k => decide (0 < v k))).map f := by
  induction l with
  | nil => rfl
  | cons k rest ih =>
    rw [List.filterMap_cons, List.filter_cons]
    by_cases h : v k ≤ 0
    · rw [if_pos h, if_neg (by simpa using not_lt.mpr h), ih]
    · rw [if_neg h, if_pos (by simpa using not_le.mp h), List.map_cons, ih]

/-- A successful association-list lookup exhibits a list entry. -/
theorem lookupA_mem {α β : Type} [DecidableEq α] (m : List (α × β)) (a : α) (v : β)
    (h : lookupA m a = some v) : (a, v) ∈ m := by
  induction m with
  | nil => exact absurd h (by rw [lookupA]; exact Option.noConfusion)
  | cons kv rest ih =>
    rw [lookupA] at h
    by_cases h1 : kv.1 = a
    · rw [if_pos h1, Option.some_inj] at h
      exact List.mem_cons.mpr (Or.inl (by rw [← h1, ← h]))
    · rw [if_neg h1] at h
      exact List.mem_cons.mpr (Or.inr (ih h))

/-- C9: on every well-formed group state, `GetGraphDOT` emits exactly the
export the spec describes — one node line per member sorted by canonical key
labelled with the display name, then one edge line per ordered pair of
members with strictly positive aggregate edge sum, sorted by from-key then
to-key, labelled with the round-half-up two-decimal dollar amount — i.e. it
equals the spec-modelled `GetGraphDOTSpec`. -/
theorem getGraphDOT_spec (g : GroupState) (hwf : wfGroup g) :
    GetGraphDOT g = GetGraphDOTSpec g := by
  obtain ⟨hnodup, hkeys, hedge⟩ := hwf
  have hnd : (g.nodes.map (·.1)).Nodup := hkeys ▸ hnodup
  have hpt : ∀ k : String × String,
      lookupZ (edgeSumsOf g.nodes) k = edgeSum g.nodes k.1 k.2 :=
    fun k => lookupZ_edgeSumsOf g.nodes k hnd
  have hfm : (List.insertionSort pairLE ((edgeSumsOf g.nodes).map (·.1))).filterMap
        (fun k => if lookupZ (edgeSumsOf g.nodes) k ≤ 0 then none
          else some (edgeLineFor k (lookupZ (edgeSumsOf g.nodes) k))) =
      ((List.insertionSort pairLE ((edgeSumsOf g.nodes).map (·.1))).filter
          (fun k => decide (0 < lookupZ (edgeSumsOf g.nodes) k))).map
        (fun k => edgeLineFor k (lookupZ (edgeSumsOf g.nodes) k)) :=
    filterMap_threshold _ _ _
  have hlists :
      (List.insertionSort pairLE ((edgeSumsOf g.nodes).map (·.1))).filter
          (fun k => decide (0 < edgeSum g.nodes k.1 k.2)) =
        List.insertionSort pairLE
          (((g.people.map (·.1)) ×ˢ (g.people.map (·.1))).filter
            (fun k => decide (0 < edgeSum g.nodes k.1 k.2))) := by
    apply List.eq_of_perm_of_sorted (r := pairLE)
    · refine (List.perm_ext_iff_of_nodup ?_ ?_).mpr ?_
      · exact ((List.perm_insertionSort pairLE _).nodup_iff.mpr
          (edgeSumsOf_keys_nodup g.nodes)).filter _
      · exact (List.perm_insertionSort pairLE _).nodup_iff.mpr
          ((hnodup.product hnodup).filter _)
      · rintro ⟨k1, k2⟩
        rw [List.mem_filter, (List.perm_insertionSort pairLE _).mem_iff,
          (List.perm_insertionSort pairLE _).mem_iff, List.mem_filter,
          List.mem_product]
        constructor
        · rintro ⟨-, hpos⟩
          have hpos2 : 0 < edgeSum g.nodes k1 k2 := by simpa using hpos
          refine ⟨⟨?_, ?_⟩, hpos⟩
          · rw [hkeys]
            exact edgeSum_ne_mem_fst g.nodes k1 k2 (ne_of_gt hpos2)
          · obtain ⟨es, hlk, e, he, hto⟩ :=
              edgeSum_ne_exists_edge g.nodes k1 k2 (ne_of_gt hpos2)
            exact hto ▸ hedge (k1, es) (lookupA_mem _ _ _ hlk) e he
        · rintro ⟨-, hpos⟩
          have hpos2 : 0 < edgeSum g.nodes k1 k2 := by simpa using hpos
          refine ⟨?_, hpos⟩
          exact mem_keysA_of_lookupZ_ne (edgeSumsOf g.nodes) (k1, k2)
            (by rw [hpt (k1, k2)]; exact ne_of_gt hpos2)
    · exact (List.sorted_insertionSort pairLE _).filter _
    · exact List.sorted_insertionSort pairLE _
  simp only [GetGraphDOT, GetGraphDOTSpec]
  rw [hfm]
  simp only [hpt]
  rw [hlists]

/-- Witness for C9 at a concrete well-formed state with one positive edge. -/
theorem getGraphDOT_spec_witness :
    wfGroup owedGroup ∧ GetGraphDOT owedGroup = GetGraphDOTSpec owedGroup :=
  ⟨by decide, getGraphDOT_spec owedGroup (by decide)⟩
